import Mathlib

/-!
Verification of the UTXO custody and transaction-construction engine of the
ckBTC minter (rs/bitcoin/ckbtc/minter).  The repository ships only the test
suite of this component (src/rs/bitcoin/ckbtc/minter/src/tests.rs); the
implementation files (lib.rs, tx.rs, address.rs) are absent, so every
definition of the engine below is modelled from the specification, with the
in-repository tests pinning the behaviour wherever the spec leaves a choice.
-/

/-! ## Big-endian positional digit utilities -/

/-- Value of a big-endian digit string in base `b` (most significant first). -/
def beToNat (b : Nat) (l : List Nat) : Nat :=
  l.foldl (fun acc d => acc * b + d) 0

/-- Big-endian digits of `n` in base `b`, most significant first, no leading
zeros (`[]` for 0).  `fuel` bounds the recursion; any `fuel` with
`n < b ^ fuel` is enough. -/
def natToBaseBE (b : Nat) : Nat → Nat → List Nat
  | 0, _ => []
  | fuel + 1, n => if n = 0 then [] else natToBaseBE b fuel (n / b) ++ [n % b]

/-- Big-endian digits of `n` in base `b` padded with leading zeros to
exactly `k` digits (assuming `n < b ^ k`). -/
def fromNatBE (b k n : Nat) : List Nat :=
  let d := natToBaseBE b n n
  List.replicate (k - d.length) 0 ++ d

/-- Number of leading zeros of a digit string. -/
def clz : List Nat → Nat
  | [] => 0
  | d :: rest => if d = 0 then clz rest + 1 else 0

/-! ## Fair-Share Distributor

Modelled from the spec: the implementation of `distribute` is not in src/
(only its property test `amount_distribute_props` is); section 4.2 of the
spec defines it as `n` values summing to `amount`, pairwise difference at
most 1, with the larger values assigned to the earliest-indexed shares. -/

def distribute (amount n : Nat) : List Nat :=
  (List.range n).map (fun i => amount / n + if i < amount % n then 1 else 0)

/-! ## UTXOs and the Greedy Coin Selector -/

structure OutPoint where
  txid : List Nat
  vout : Nat
deriving DecidableEq, Repr

structure Utxo where
  outpoint : OutPoint
  value : Nat
  height : Nat
deriving DecidableEq, Repr

/-- Lexicographic comparison of two byte strings, used to order outpoints. -/
def bytesLt : List Nat → List Nat → Bool
  | [], [] => false
  | [], _ :: _ => true
  | _ :: _, [] => false
  | a :: as, b :: bs => if a < b then true else if b < a then false else bytesLt as bs

/-- The total order on UTXOs: by value, then by outpoint (txid, then vout).
The spec calls this ordering load-bearing for selection determinism. -/
def utxoLt (a b : Utxo) : Bool :=
  if a.value < b.value then true
  else if b.value < a.value then false
  else if bytesLt a.outpoint.txid b.outpoint.txid then true
  else if bytesLt b.outpoint.txid a.outpoint.txid then false
  else a.outpoint.vout < b.outpoint.vout

def utxoSum (l : List Utxo) : Nat := (l.map (·.value)).sum

/-- The largest (in the `utxoLt` order) available UTXO whose value does not
exceed `target`, if any. -/
def selectMaxLe (target : Nat) : List Utxo → Option Utxo
  | [] => none
  | u :: rest =>
    if u.value ≤ target then
      match selectMaxLe target rest with
      | none => some u
      | some v => if utxoLt v u then some u else some v
    else selectMaxLe target rest

/-- The smallest (in the `utxoLt` order) available UTXO whose value exceeds
`target`, if any. -/
def selectMinGt (target : Nat) : List Utxo → Option Utxo
  | [] => none
  | u :: rest =>
    if target < u.value then
      match selectMinGt target rest with
      | none => some u
      | some v => if utxoLt u v then some u else some v
    else selectMinGt target rest

/-- One round of the greedy loop, with `fuel` bounding the number of picks.
Returns the selection (in pick order) and the remaining available set. -/
def greedyGo : Nat → Nat → List Utxo → List Utxo × List Utxo
  | 0, _, avail => ([], avail)
  | _ + 1, 0, avail => ([], avail)
  | fuel + 1, target, avail =>
    match selectMaxLe target avail with
    | some u =>
      let p := greedyGo fuel (target - u.value) (avail.erase u)
      (u :: p.1, p.2)
    | none =>
      match selectMinGt target avail with
      | some u => ([u], avail.erase u)
      | none => ([], avail)

/-- Modelled from the spec: the implementation of `greedy` is not in src/
(only its tests are).  Spec 4.6: while the target is positive, pick the
largest available UTXO whose value does not exceed the target; if none
exists, pick the smallest available UTXO that exceeds the target and stop.
Picked UTXOs are removed from the available set.  If the total value of the
available set is smaller than the target, the selection fails atomically:
the result is the empty selection and the set is returned unmodified. -/
def greedy (target : Nat) (available : List Utxo) : List Utxo × List Utxo :=
  if utxoSum available < target then ([], available)
  else greedyGo available.length target available

/-! ## SHA-256 (needed for base58check checksums, txids and sighashes)

A direct executable model of FIPS 180-4 SHA-256 over byte lists, with
machine words represented as naturals reduced modulo 2^32. -/

def rotr32 (n x : Nat) : Nat := ((x >>> n) ||| (x <<< (32 - n))) % 4294967296

def shaK : List Nat :=
  [1116352408, 1899447441, 3049323471, 3921009573, 961987163,
   1508970993, 2453635748, 2870763221, 3624381080, 310598401,
   607225278, 1426881987, 1925078388, 2162078206, 2614888103,
   3248222580, 3835390401, 4022224774, 264347078, 604807628,
   770255983, 1249150122, 1555081692, 1996064986, 2554220882,
   2821834349, 2952996808, 3210313671, 3336571891, 3584528711,
   113926993, 338241895, 666307205, 773529912, 1294757372,
   1396182291, 1695183700, 1986661051, 2177026350, 2456956037,
   2730485921, 2820302411, 3259730800, 3345764771, 3516065817,
   3600352804, 4094571909, 275423344, 430227734, 506948616,
   659060556, 883997877, 958139571, 1322822218, 1537002063,
   1747873779, 1955562222, 2024104815, 2227730452, 2361852424,
   2428436474, 2756734187, 3204031479, 3329325298]

def shaH0 : List Nat :=
  [1779033703, 3144134277, 1013904242, 2773480762,
   1359893119, 2600822924, 528734635, 1541459225]

/-- Group a byte list into big-endian 32-bit words. -/
def bytesToWordsBE : List Nat → List Nat
  | b0 :: b1 :: b2 :: b3 :: rest => (((b0 * 256 + b1) * 256 + b2) * 256 + b3) :: bytesToWordsBE rest
  | _ => []

/-- Extend the 16-word message schedule by `fuel` additional words. -/
def shaExtend : Nat → List Nat → List Nat
  | 0, w => w
  | fuel + 1, w =>
    let i := w.length
    let w15 := w.getD (i - 15) 0
    let w2 := w.getD (i - 2) 0
    let s0 := (rotr32 7 w15) ^^^ (rotr32 18 w15) ^^^ (w15 >>> 3)
    let s1 := (rotr32 17 w2) ^^^ (rotr32 19 w2) ^^^ (w2 >>> 10)
    shaExtend fuel (w ++ [(w.getD (i - 16) 0 + s0 + w.getD (i - 7) 0 + s1) % 4294967296])

/-- One SHA-256 round: the state is the 8-word list [a,b,c,d,e,f,g,h] and
`kw` is the round constant already added to the scheduled word. -/
def shaRound (st : List Nat) (kw : Nat) : List Nat :=
  match st with
  | [a, b, c, d, e, f, g, h] =>
    let S1 := (rotr32 6 e) ^^^ (rotr32 11 e) ^^^ (rotr32 25 e)
    let ch := (e &&& f) ^^^ ((e ^^^ 4294967295) &&& g)
    let t1 := (h + S1 + ch + kw) % 4294967296
    let S0 := (rotr32 2 a) ^^^ (rotr32 13 a) ^^^ (rotr32 22 a)
    let mj := (a &&& b) ^^^ (a &&& c) ^^^ (b &&& c)
    let t2 := (S0 + mj) % 4294967296
    [(t1 + t2) % 4294967296, a, b, c, (d + t1) % 4294967296, e, f, g]
  | other => other

def shaCompress (h : List Nat) (block : List Nat) : List Nat :=
  let w := shaExtend 48 (bytesToWordsBE block)
  let kws := List.zipWith (fun k wi => (k + wi) % 4294967296) shaK w
  let fin := kws.foldl shaRound h
  List.zipWith (fun x y => (x + y) % 4294967296) h fin

def chunks64 : Nat → List Nat → List (List Nat)
  | 0, _ => []
  | _ + 1, [] => []
  | fuel + 1, l => l.take 64 :: chunks64 fuel (l.drop 64)

def shaPad (msg : List Nat) : List Nat :=
  let L := msg.length
  msg ++ [128] ++ List.replicate ((119 - L % 64) % 64) 0 ++ fromNatBE 256 8 (L * 8)

def sha256 (msg : List Nat) : List Nat :=
  let padded := shaPad msg
  let hs := (chunks64 padded.length padded).foldl shaCompress shaH0
  hs.foldr (fun w acc => fromNatBE 256 4 w ++ acc) []

/-- Double SHA-256, Bitcoin's standard hash. -/
def sha256d (msg : List Nat) : List Nat := sha256 (sha256 msg)

/-! ## Address Codec

Modelled from the spec: address.rs is not in src/ (only its tests are).
Spec 4.1: three encodings - bech32 segwit v0 with a 20-byte witness
program, base58check with the network's P2PKH version byte, and
base58check with the network's P2SH version byte.  Strings are modelled
as lists of characters. -/

inductive Network
  | Mainnet
  | Testnet
  | Regtest
deriving DecidableEq, Repr

inductive BitcoinAddress
  | P2wpkhV0 (pkhash : List Nat)
  | P2pkh (pkhash : List Nat)
  | P2sh (shash : List Nat)
deriving DecidableEq, Repr

inductive ParseAddressError
  | MalformedAddress
  | BadChecksum
  | UnsupportedWitnessVersion
  | BadProgramLength
  | WrongVersionByte
deriving DecidableEq, Repr

/-- Base58check version byte for pay-to-public-key-hash.  Regtest shares
testnet's version bytes. -/
def p2pkhVersion : Network → Nat
  | .Mainnet => 0
  | _ => 111

/-- Base58check version byte for pay-to-script-hash. -/
def p2shVersion : Network → Nat
  | .Mainnet => 5
  | _ => 196

def base58Alphabet : List Char :=
  "123456789ABCDEFGHJKLMNPQRSTUVWXYZabcdefghijkmnopqrstuvwxyz".toList

def base58Char (d : Nat) : Char := base58Alphabet.getD d '?'

/-- Index of a character in an alphabet (used to invert both codecs). -/
def charIndex : List Char → Char → Option Nat
  | [], _ => none
  | c :: rest, x => if c = x then some 0 else (charIndex rest x).map (· + 1)

/-- Decode every character through the alphabet, failing on a foreign one. -/
def decodeChars (alpha : List Char) : List Char → Option (List Nat)
  | [] => some []
  | c :: rest =>
    match charIndex alpha c, decodeChars alpha rest with
    | some d, some ds => some (d :: ds)
    | _, _ => none

def countLeadingOnes : List Char → Nat
  | [] => 0
  | c :: rest => if c = '1' then countLeadingOnes rest + 1 else 0

/-- Base58check: append the first four bytes of the double SHA-256 of the
payload, then encode leading zero bytes as '1' characters and the rest as
a base-58 big-endian number. -/
def base58checkEncode (payload : List Nat) : List Char :=
  let full := payload ++ (sha256d payload).take 4
  let n := beToNat 256 full
  List.replicate (clz full) '1' ++ (natToBaseBE 58 n n).map base58Char

/-- Base58check decoding: recover the byte string, check the 25-byte
length expected of an address and the 4-byte double-SHA-256 checksum, and
return the 21-byte version-plus-hash payload. -/
def base58checkDecode (s : List Char) : Option (List Nat) :=
  let z := countLeadingOnes s
  match decodeChars base58Alphabet (s.drop z) with
  | none => none
  | some digits =>
    let n := beToNat 58 digits
    let bytes := List.replicate z 0 ++ natToBaseBE 256 n n
    if bytes.length = 25 then
      let payload := bytes.take 21
      if bytes.drop 21 = (sha256d payload).take 4 then some payload else none
    else none

def bech32Charset : List Char := "qpzry9x8gf2tvdw0s3jn54khce6mua7l".toList

def bech32Char (d : Nat) : Char := bech32Charset.getD d '?'

/-- Bech32 human-readable part.  The btc_address_parsing_model test checks
parsing of addresses rendered by the reference bitcoin library, which uses
the distinct prefix bcrt for regtest. -/
def bech32Hrp : Network → List Char
  | .Mainnet => ['b', 'c']
  | .Testnet => ['t', 'b']
  | .Regtest => ['b', 'c', 'r', 't']

def bech32Gen : List Nat := [0x3b6a57b2, 0x26508e6d, 0x1ea119fa, 0x3d4233dd, 0x2a1462b3]

def bech32PolymodStep (chk v : Nat) : Nat :=
  let b := chk >>> 25
  let chk' := ((chk &&& 0x1ffffff) <<< 5) ^^^ v
  (List.range 5).foldl
    (fun acc i => if (b >>> i) &&& 1 = 1 then acc ^^^ bech32Gen.getD i 0 else acc) chk'

def bech32Polymod (values : List Nat) : Nat := values.foldl bech32PolymodStep 1

def bech32HrpExpand (h : List Char) : List Nat :=
  h.map (fun c => c.toNat >>> 5) ++ [0] ++ h.map (fun c => c.toNat &&& 31)

def bech32CreateChecksum (h : List Char) (data : List Nat) : List Nat :=
  let pm := bech32Polymod (bech32HrpExpand h ++ data ++ [0, 0, 0, 0, 0, 0]) ^^^ 1
  [25, 20, 15, 10, 5, 0].map (fun k => (pm >>> k) % 32)

def bech32Encode (h : List Char) (data : List Nat) : List Char :=
  h ++ ['1'] ++ (data ++ bech32CreateChecksum h data).map bech32Char

/-- Spec 4.1: display is the exact inverse of parse for the same network.
A P2WPKH address is the bech32 encoding of witness version 0 followed by
the 20-byte program regrouped into 5-bit values; the legacy kinds are
base58check of the version byte followed by the 20-byte hash. -/
def BitcoinAddress.display (addr : BitcoinAddress) (network : Network) : List Char :=
  match addr with
  | .P2wpkhV0 pkhash => bech32Encode (bech32Hrp network) (0 :: fromNatBE 32 32 (beToNat 256 pkhash))
  | .P2pkh pkhash => base58checkEncode (p2pkhVersion network :: pkhash)
  | .P2sh shash => base58checkEncode (p2shVersion network :: shash)

/-- Spec 4.1: parse recognizes the three encodings for the given network,
rejecting checksum or version mismatches, wrong witness versions and wrong
program lengths. -/
def BitcoinAddress.parse (s : List Char) (network : Network) :
    Except ParseAddressError BitcoinAddress :=
  if (bech32Hrp network ++ ['1']).isPrefixOf s then
    let t := s.drop ((bech32Hrp network).length + 1)
    match decodeChars bech32Charset t with
    | none => .error .MalformedAddress
    | some vals =>
      if vals.length < 7 then .error .MalformedAddress
      else
        let data := vals.take (vals.length - 6)
        let cs := vals.drop (vals.length - 6)
        if cs ≠ bech32CreateChecksum (bech32Hrp network) data then .error .BadChecksum
        else
          match data with
          | [] => .error .MalformedAddress
          | ver :: prog =>
            if ver ≠ 0 then .error .UnsupportedWitnessVersion
            else if prog.length ≠ 32 then .error .BadProgramLength
            else .ok (.P2wpkhV0 (fromNatBE 256 20 (beToNat 32 prog)))
  else
    match base58checkDecode s with
    | none => .error .BadChecksum
    | some payload =>
      match payload with
      | [] => .error .MalformedAddress
      | v :: hash =>
        if v = p2pkhVersion network then .ok (.P2pkh hash)
        else if v = p2shVersion network then .ok (.P2sh hash)
        else .error .WrongVersionByte

deriving instance DecidableEq for Except

/-! ## Transaction Model & Encoder

Modelled from the spec: tx.rs is not in src/ (only its tests are).
Spec 4.3: standard Bitcoin wire layout, all fields little-endian with
compact-size length prefixes; the segwit marker and flag bytes appear only
when the transaction carries a witness. -/

def TX_VERSION : Nat := 1

def SIGHASH_ALL : Nat := 1

def PUBKEY_LEN : Nat := 33

/-- Sequence number used for the builder's inputs. -/
def INPUT_SEQUENCE : Nat := 0xffffffff

structure UnsignedInput where
  previous_output : OutPoint
  value : Nat
  sequence : Nat
deriving DecidableEq, Repr

structure TxOut where
  value : Nat
  address : BitcoinAddress
deriving DecidableEq, Repr

structure UnsignedTransaction where
  inputs : List UnsignedInput
  outputs : List TxOut
  lock_time : Nat
deriving DecidableEq, Repr

structure SignedInput where
  previous_output : OutPoint
  sequence : Nat
  signature : List Nat
  pubkey : List Nat
deriving DecidableEq, Repr

structure SignedTransaction where
  inputs : List SignedInput
  outputs : List TxOut
  lock_time : Nat
deriving DecidableEq, Repr

def u32LEBytes (n : Nat) : List Nat :=
  [n % 256, n / 256 % 256, n / 65536 % 256, n / 16777216 % 256]

def u64LEBytes (n : Nat) : List Nat :=
  [n % 256, n / 256 % 256, n / 65536 % 256, n / 16777216 % 256,
   n / 4294967296 % 256, n / 1099511627776 % 256,
   n / 281474976710656 % 256, n / 72057594037927936 % 256]

/-- Bitcoin compact-size (varint) encoding of a length. -/
def varint (n : Nat) : List Nat :=
  if n < 253 then [n]
  else if n < 65536 then [253, n % 256, n / 256 % 256]
  else if n < 4294967296 then 254 :: u32LEBytes n
  else 255 :: u64LEBytes n

/-- scriptPubKey for each supported address kind (mainnet encoding rule,
used network-agnostically inside transactions per spec 4.3). -/
def scriptPubKey : BitcoinAddress → List Nat
  | .P2wpkhV0 h => [0x00, 0x14] ++ h
  | .P2pkh h => [0x76, 0xa9, 0x14] ++ h ++ [0x88, 0xac]
  | .P2sh h => [0xa9, 0x14] ++ h ++ [0x87]

def flatMapBytes (f : α → List Nat) (l : List α) : List Nat :=
  l.foldr (fun x acc => f x ++ acc) []

def encodeOutPoint (o : OutPoint) : List Nat := o.txid ++ u32LEBytes o.vout

def encodeTxOut (o : TxOut) : List Nat :=
  u64LEBytes o.value ++ varint (scriptPubKey o.address).length ++ scriptPubKey o.address

/-- Non-witness encoding of an input: outpoint, empty scriptSig, sequence. -/
def encodeInputBase (prev : OutPoint) (sequence : Nat) : List Nat :=
  encodeOutPoint prev ++ [0] ++ u32LEBytes sequence

/-- Witness stack of a signed input: two items, signature then pubkey. -/
def encodeWitness (i : SignedInput) : List Nat :=
  varint 2 ++ varint i.signature.length ++ i.signature ++ varint i.pubkey.length ++ i.pubkey

def encodeUnsignedTx (tx : UnsignedTransaction) : List Nat :=
  u32LEBytes TX_VERSION
    ++ varint tx.inputs.length
    ++ flatMapBytes (fun i => encodeInputBase i.previous_output i.sequence) tx.inputs
    ++ varint tx.outputs.length
    ++ flatMapBytes encodeTxOut tx.outputs
    ++ u32LEBytes tx.lock_time

/-- Non-witness serialization of a signed transaction (its base size). -/
def encodeSignedTxBase (tx : SignedTransaction) : List Nat :=
  u32LEBytes TX_VERSION
    ++ varint tx.inputs.length
    ++ flatMapBytes (fun i => encodeInputBase i.previous_output i.sequence) tx.inputs
    ++ varint tx.outputs.length
    ++ flatMapBytes encodeTxOut tx.outputs
    ++ u32LEBytes tx.lock_time

/-- Full witness serialization: marker and flag bytes, then the base
fields with the per-input witness stacks before the lock time. -/
def encodeSignedTxWitness (tx : SignedTransaction) : List Nat :=
  u32LEBytes TX_VERSION
    ++ [0, 1]
    ++ varint tx.inputs.length
    ++ flatMapBytes (fun i => encodeInputBase i.previous_output i.sequence) tx.inputs
    ++ varint tx.outputs.length
    ++ flatMapBytes encodeTxOut tx.outputs
    ++ flatMapBytes encodeWitness tx.inputs
    ++ u32LEBytes tx.lock_time

def UnsignedTransaction.txid (tx : UnsignedTransaction) : List Nat :=
  sha256d (encodeUnsignedTx tx)

def SignedTransaction.wtxid (tx : SignedTransaction) : List Nat :=
  sha256d (encodeSignedTxWitness tx)

/-- Spec 4.3: weight-based virtual size,
vsize = (3 * base_size + total_size + 3) / 4. -/
def SignedTransaction.vsize (tx : SignedTransaction) : Nat :=
  (3 * (encodeSignedTxBase tx).length + (encodeSignedTxWitness tx).length + 3) / 4

/-- Placeholder DER signature of the correct final byte length (70 bytes:
two 32-byte integers, each with a 2-byte header, inside a 2-byte sequence
frame), per spec 9: trial signatures match the real byte length exactly. -/
def FAKE_SIG : List Nat := List.replicate 70 1

/-- Modelled from the spec: fake_sign is not in src/ (only its callers in
tests are).  It replaces each input by a signed input carrying placeholder
signature and public-key bytes of the correct lengths, so the trial
transaction's vsize equals the final one's. -/
def fake_sign (tx : UnsignedTransaction) : SignedTransaction :=
  { inputs := tx.inputs.map (fun i =>
      { previous_output := i.previous_output
        sequence := i.sequence
        signature := FAKE_SIG
        pubkey := List.replicate PUBKEY_LEN 0 })
    outputs := tx.outputs
    lock_time := tx.lock_time }

/-! ## Segwit Sighash Engine

Modelled from the spec: the TxSigHasher of tx.rs is not in src/ (only its
model test unsigned_tx_sighash_model is).  Spec 4.4: the engine hashes all
previous outpoints, sequence numbers and serialized outputs once, then
assembles the BIP143 preimage per input. -/

structure TxSigHasher where
  tx : UnsignedTransaction
  hashPrevouts : List Nat
  hashSequence : List Nat
  hashOutputs : List Nat

def TxSigHasher.new (tx : UnsignedTransaction) : TxSigHasher :=
  { tx := tx
    hashPrevouts := sha256d (flatMapBytes (fun i => encodeOutPoint i.previous_output) tx.inputs)
    hashSequence := sha256d (flatMapBytes (fun i => u32LEBytes i.sequence) tx.inputs)
    hashOutputs := sha256d (flatMapBytes encodeTxOut tx.outputs) }

/-- The standard P2WPKH script code
OP_DUP OP_HASH160 push-20 hash OP_EQUALVERIFY OP_CHECKSIG. -/
def p2wpkhScriptCode (pkhash : List Nat) : List Nat :=
  [0x76, 0xa9, 0x14] ++ pkhash ++ [0x88, 0xac]

def defaultInput : UnsignedInput := { previous_output := { txid := [], vout := 0 }, value := 0, sequence := 0 }

/-- The BIP143 signature preimage for input index i, assembled from the
engine's cached hashes and the shared field encoders. -/
def TxSigHasher.encodeSighashData (h : TxSigHasher) (i : Nat) (pkhash : List Nat) : List Nat :=
  let inp := h.tx.inputs.getD i defaultInput
  u32LEBytes TX_VERSION
    ++ h.hashPrevouts
    ++ h.hashSequence
    ++ encodeOutPoint inp.previous_output
    ++ varint (p2wpkhScriptCode pkhash).length ++ p2wpkhScriptCode pkhash
    ++ u64LEBytes inp.value
    ++ u32LEBytes inp.sequence
    ++ h.hashOutputs
    ++ u32LEBytes h.tx.lock_time
    ++ u32LEBytes SIGHASH_ALL

def TxSigHasher.sighash (h : TxSigHasher) (i : Nat) (pkhash : List Nat) : List Nat :=
  sha256d (h.encodeSighashData i pkhash)

/-- The canonical BIP143 preimage, written as one flat byte string that
follows the field list of the standard (and of spec 4.4) directly, with
independent little-endian byte expressions.  This is the reference against
which the engine is checked. -/
def bip143Preimage (tx : UnsignedTransaction) (i : Nat) (pkhash : List Nat) : List Nat :=
  let inp := tx.inputs.getD i defaultInput
  ((List.range 4).map (fun j => TX_VERSION / 256 ^ j % 256))
    ++ sha256d ((tx.inputs.map
          (fun q => q.previous_output.txid
            ++ (List.range 4).map (fun j => q.previous_output.vout / 256 ^ j % 256))).foldr
        (· ++ ·) [])
    ++ sha256d ((tx.inputs.map
          (fun q => (List.range 4).map (fun j => q.sequence / 256 ^ j % 256))).foldr (· ++ ·) [])
    ++ inp.previous_output.txid
    ++ (List.range 4).map (fun j => inp.previous_output.vout / 256 ^ j % 256)
    ++ [0x19, 0x76, 0xa9, 0x14] ++ pkhash ++ [0x88, 0xac]
    ++ (List.range 8).map (fun j => inp.value / 256 ^ j % 256)
    ++ (List.range 4).map (fun j => inp.sequence / 256 ^ j % 256)
    ++ sha256d ((tx.outputs.map
          (fun o => (List.range 8).map (fun j => o.value / 256 ^ j % 256)
            ++ varint (scriptPubKey o.address).length ++ scriptPubKey o.address)).foldr
        (· ++ ·) [])
    ++ (List.range 4).map (fun j => tx.lock_time / 256 ^ j % 256)
    ++ (List.range 4).map (fun j => SIGHASH_ALL / 256 ^ j % 256)

/-! ## Transaction Builder

Modelled from the spec: build_unsigned_transaction of lib.rs is not in
src/ (only its tests are).  Spec 4.7 with the clarification of spec 9
(total deducted from the requested outputs = fee + max(0, MIN_CHANGE -
surplus)) and the behaviour pinned by the in-repository tests:
test_min_change_amount shows that when the surplus is positive but below
MIN_CHANGE the change output is kept and topped up to exactly MIN_CHANGE
(its cost being apportioned onto the requested outputs), and
build_tx_handles_change_from_inputs shows that the change output pays the
full surplus while the fee is deducted from the requested outputs.
Failures follow the checkpoint/commit discipline of spec 9: the available
set is returned unchanged on every error. -/

inductive BuildTxError
  | NotEnoughFunds
  | AmountTooLow
  | ZeroOutput (address : BitcoinAddress) (amount : Nat)
deriving DecidableEq, Repr

structure ChangeOutput where
  vout : Nat
  value : Nat
deriving DecidableEq, Repr

/-- Modelled from the spec: the spec names MIN_CHANGE as a contract
constant but does not fix its value.  An odd value is chosen so that the
fair-share apportionment reproduces the equal shares asserted by the
test_min_change_amount test (the fee there is always even). -/
def MIN_CHANGE : Nat := 1001

def utxoToInput (u : Utxo) : UnsignedInput :=
  { previous_output := u.outpoint, value := u.value, sequence := INPUT_SEQUENCE }

/-- Total requested amount: the selection target. -/
def buildAmount (requests : List (BitcoinAddress × Nat)) : Nat :=
  (requests.map (·.2)).sum

def buildSel (available : List Utxo) (requests : List (BitcoinAddress × Nat)) : List Utxo :=
  (greedy (buildAmount requests) available).1

def buildAvailRest (available : List Utxo) (requests : List (BitcoinAddress × Nat)) : List Utxo :=
  (greedy (buildAmount requests) available).2

def buildSurplus (available : List Utxo) (requests : List (BitcoinAddress × Nat)) : Nat :=
  utxoSum (buildSel available requests) - buildAmount requests

/-- Value of the change output: the full surplus, topped up to MIN_CHANGE
when it is positive but below it; 0 encodes the absence of a change
output (surplus = 0). -/
def buildChangeValue (available : List Utxo) (requests : List (BitcoinAddress × Nat)) : Nat :=
  if buildSurplus available requests = 0 then 0
  else max (buildSurplus available requests) MIN_CHANGE

/-- The provisional transaction of spec 4.7 step 2: one output per request
with unmodified amounts, plus the change output when inputs exceed the
target.  Its trial-signed vsize prices the fee; output values do not
affect vsize, so the trial size equals the final size. -/
def buildProvisional (available : List Utxo) (requests : List (BitcoinAddress × Nat))
    (changeAddress : BitcoinAddress) : UnsignedTransaction :=
  { inputs := (buildSel available requests).map utxoToInput
    outputs := requests.map (fun r => { value := r.2, address := r.1 })
      ++ (if buildSurplus available requests = 0 then []
          else [{ value := buildChangeValue available requests, address := changeAddress }])
    lock_time := 0 }

/-- Spec 4.7 step 3: fee = vsize of the trial-signed transaction times the
fee rate (milli-satoshi per vbyte) divided by 1000. -/
def buildFee (available : List Utxo) (requests : List (BitcoinAddress × Nat))
    (changeAddress : BitcoinAddress) (feeRate : Nat) : Nat :=
  (fake_sign (buildProvisional available requests changeAddress)).vsize * feeRate / 1000

/-- Total deducted from the requested outputs:
fee + max(0, MIN_CHANGE - surplus) (spec 9); natural subtraction supplies
the truncation at 0. -/
def buildDeduct (available : List Utxo) (requests : List (BitcoinAddress × Nat))
    (changeAddress : BitcoinAddress) (feeRate : Nat) : Nat :=
  buildFee available requests changeAddress feeRate
    + (MIN_CHANGE - buildSurplus available requests)

def buildShares (available : List Utxo) (requests : List (BitcoinAddress × Nat))
    (changeAddress : BitcoinAddress) (feeRate : Nat) : List Nat :=
  distribute (buildDeduct available requests changeAddress feeRate) requests.length

/-- The first request whose value would drop to zero or below once its
fair share is deducted, if any (spec 4.7 step 5). -/
def firstViolation (requests : List (BitcoinAddress × Nat)) (shares : List Nat) :
    Option (BitcoinAddress × Nat) :=
  ((requests.zip shares).find? (fun p => p.1.2 ≤ p.2)).map (·.1)

/-- The finalized outputs: each request pays its amount minus its fair
share, then the change output (if any) comes last. -/
def buildFinalOutputs (available : List Utxo) (requests : List (BitcoinAddress × Nat))
    (changeAddress : BitcoinAddress) (feeRate : Nat) : List TxOut :=
  List.zipWith (fun (r : BitcoinAddress × Nat) s => TxOut.mk (r.2 - s) r.1) requests
      (buildShares available requests changeAddress feeRate)
    ++ (if buildSurplus available requests = 0 then []
        else [{ value := buildChangeValue available requests, address := changeAddress }])

/-- build_unsigned_transaction: returns the result together with the new
available set (the Rust function mutates the set it is given by
reference).  The AmountTooLow check of spec 4.7 step 6 covers the
single-output case and, as the build_tx_does_not_modify_utxos_on_error
test pins, precedes the fair-share apportionment. -/
def build_unsigned_transaction (available : List Utxo)
    (requests : List (BitcoinAddress × Nat)) (changeAddress : BitcoinAddress)
    (feeRate : Nat) :
    Except BuildTxError (UnsignedTransaction × Option ChangeOutput × List Utxo) × List Utxo :=
  if buildSel available requests = [] then (.error .NotEnoughFunds, available)
  else if requests.length = 1 ∧
      buildAmount requests ≤ buildFee available requests changeAddress feeRate then
    (.error .AmountTooLow, available)
  else
    match firstViolation requests (buildShares available requests changeAddress feeRate) with
    | some (a, m) => (.error (.ZeroOutput a m), available)
    | none =>
      (.ok
        ({ inputs := (buildSel available requests).map utxoToInput
           outputs := buildFinalOutputs available requests changeAddress feeRate
           lock_time := 0 },
         (if buildSurplus available requests = 0 then none
          else some { vout := requests.length, value := buildChangeValue available requests }),
         buildSel available requests),
       buildAvailRest available requests)

/-! ## Concrete instances used by the examples of the test suite -/

def exAddrM : BitcoinAddress := .P2wpkhV0 (List.replicate 20 0)

def exAddrA : BitcoinAddress := .P2wpkhV0 (List.replicate 20 1)

def exAddrB : BitcoinAddress := .P2wpkhV0 (List.replicate 20 2)

def exU0 : Utxo := ⟨⟨List.replicate 32 0, 0⟩, 100000, 10⟩

def exU1 : Utxo := ⟨⟨List.replicate 32 1, 1⟩, 100000, 10⟩

def exUBig : Utxo := ⟨⟨List.replicate 32 5, 0⟩, 1000000, 0⟩

def exUMid : Utxo := ⟨⟨List.replicate 32 7, 0⟩, 200000, 0⟩

def exTx : UnsignedTransaction :=
  { inputs := [{ previous_output := ⟨List.replicate 32 9, 0⟩, value := 5000,
                 sequence := 4294967293 }]
    outputs := [{ value := 4000, address := exAddrA }]
    lock_time := 0 }

/-- The 20-byte hash carried by an address, whichever its kind. -/
def addrPayload : BitcoinAddress → List Nat
  | .P2wpkhV0 h => h
  | .P2pkh h => h
  | .P2sh h => h

/-! # Theorems -/

/-! ## Fair-Share Distributor -/

theorem distribute_length (amount n : Nat) : (distribute amount n).length = n := by
  simp [distribute]

theorem sum_range_indicator (r n : Nat) :
    ((List.range n).map (fun i => if i < r then 1 else 0)).sum = min r n := by
  induction n with
  | zero => simp
  | succ n ih =>
    rw [List.range_succ, List.map_append, List.sum_append]
    simp only [List.map_cons, List.map_nil, List.sum_cons, List.sum_nil, ih]
    rcases Nat.lt_or_ge n r with h | h
    · have h1 : min r n = n := Nat.min_eq_right (Nat.le_of_lt h)
      have h2 : min r (n + 1) = n + 1 := Nat.min_eq_right h
      simp [h, h1, h2]
    · have h1 : min r n = r := Nat.min_eq_left h
      have h2 : min r (n + 1) = r := Nat.min_eq_left (Nat.le_succ_of_le h)
      simp [Nat.not_lt_of_ge h, h1, h2]

theorem distribute_sum (amount n : Nat) (hn : 1 ≤ n) :
    (distribute amount n).sum = amount := by
  have hsplit : ∀ l : List Nat, (l.map (fun i => amount / n + if i < amount % n then 1 else 0)).sum
      = l.length * (amount / n) + (l.map (fun i => if i < amount % n then 1 else 0)).sum := by
    intro l
    induction l with
    | nil => simp
    | cons x xs ih => simp [ih, Nat.succ_mul]; omega
  have hmod : amount % n < n := Nat.mod_lt _ hn
  rw [distribute, hsplit, sum_range_indicator, List.length_range,
    Nat.min_eq_left (Nat.le_of_lt hmod)]
  have := Nat.div_add_mod amount n
  omega

theorem distribute_mem_bounds (amount n : Nat) (x : Nat) (hx : x ∈ distribute amount n) :
    amount / n ≤ x ∧ x ≤ amount / n + 1 := by
  rw [distribute] at hx
  rcases List.mem_map.mp hx with ⟨i, _, rfl⟩
  by_cases h : i < amount % n <;> simp [h]

theorem distribute_getD (amount n j : Nat) (hj : j < n) :
    (distribute amount n).getD j 0 = amount / n + if j < amount % n then 1 else 0 := by
  have hlen : j < (distribute amount n).length := by rw [distribute_length]; exact hj
  rw [List.getD_eq_getElem _ _ hlen]
  simp [distribute]

/-- C6: For every amount and every n >= 1, distribute(amount, n) returns a
sequence of exactly n values whose sum equals amount, any two of the values
differ by at most 1, and the larger values are assigned to the
earliest-indexed shares. -/
theorem claim_C6 (amount n : Nat) (hn : 1 ≤ n) :
    (distribute amount n).length = n ∧
    (distribute amount n).sum = amount ∧
    (∀ x ∈ distribute amount n, ∀ y ∈ distribute amount n, x ≤ y + 1) ∧
    (∀ i j, i ≤ j → j < n →
      (distribute amount n).getD j 0 ≤ (distribute amount n).getD i 0) := by
  refine ⟨distribute_length amount n, distribute_sum amount n hn, ?_, ?_⟩
  · intro x hx y hy
    have hxb := distribute_mem_bounds amount n x hx
    have hyb := distribute_mem_bounds amount n y hy
    omega
  · intro i j hij hj
    rw [distribute_getD amount n j hj, distribute_getD amount n i (Nat.lt_of_le_of_lt hij hj)]
    by_cases h : j < amount % n
    · simp [h, Nat.lt_of_le_of_lt hij h]
    · by_cases h' : i < amount % n <;> simp [h, h']

/-- Witness for C6 at amount 17, n 5. -/
theorem claim_C6_witness :
    (distribute 17 5).length = 5 ∧ (distribute 17 5).sum = 17 := by
  have h := claim_C6 17 5 (by decide)
  exact ⟨h.1, h.2.1⟩

/-! ## Greedy Coin Selector -/

theorem utxoSum_nil : utxoSum [] = 0 := rfl

theorem utxoSum_cons (u : Utxo) (l : List Utxo) : utxoSum (u :: l) = u.value + utxoSum l := by
  simp [utxoSum]

theorem utxoSum_append (a b : List Utxo) : utxoSum (a ++ b) = utxoSum a + utxoSum b := by
  simp [utxoSum]

theorem utxoSum_perm {l l' : List Utxo} (h : l.Perm l') : utxoSum l = utxoSum l' := by
  simp only [utxoSum]
  exact (h.map (·.value)).sum_eq

theorem selectMaxLe_eq_some {t : Nat} {l : List Utxo} :
    ∀ {u : Utxo}, selectMaxLe t l = some u → u ∈ l ∧ u.value ≤ t := by
  induction l with
  | nil => intro u h; simp [selectMaxLe] at h
  | cons x rest ih =>
    intro u h
    rw [selectMaxLe] at h
    by_cases hx : x.value ≤ t
    · rw [if_pos hx] at h
      rcases hrec : selectMaxLe t rest with _ | v <;> rw [hrec] at h
      · cases h
        exact ⟨List.mem_cons_self _ _, hx⟩
      · dsimp only at h
        by_cases hlt : utxoLt v x = true
        · rw [if_pos hlt] at h
          cases h
          exact ⟨List.mem_cons_self _ _, hx⟩
        · rw [if_neg hlt] at h
          cases h
          rcases ih hrec with ⟨h1, h2⟩
          exact ⟨List.mem_cons_of_mem _ h1, h2⟩
    · rw [if_neg hx] at h
      rcases ih h with ⟨h1, h2⟩
      exact ⟨List.mem_cons_of_mem _ h1, h2⟩

theorem selectMaxLe_eq_none {t : Nat} {l : List Utxo}
    (h : selectMaxLe t l = none) : ∀ u ∈ l, ¬u.value ≤ t := by
  induction l with
  | nil => simp
  | cons x rest ih =>
    rw [selectMaxLe] at h
    by_cases hx : x.value ≤ t
    · rw [if_pos hx] at h
      rcases hrec : selectMaxLe t rest with _ | v <;> rw [hrec] at h
      · simp at h
      · dsimp only at h
        split at h <;> simp at h
    · rw [if_neg hx] at h
      intro u hu
      rcases List.mem_cons.mp hu with rfl | hmem
      · exact hx
      · exact ih h u hmem

theorem selectMinGt_eq_some {t : Nat} {l : List Utxo} :
    ∀ {u : Utxo}, selectMinGt t l = some u → u ∈ l ∧ t < u.value := by
  induction l with
  | nil => intro u h; simp [selectMinGt] at h
  | cons x rest ih =>
    intro u h
    rw [selectMinGt] at h
    by_cases hx : t < x.value
    · rw [if_pos hx] at h
      rcases hrec : selectMinGt t rest with _ | v <;> rw [hrec] at h
      · cases h
        exact ⟨List.mem_cons_self _ _, hx⟩
      · dsimp only at h
        by_cases hlt : utxoLt x v = true
        · rw [if_pos hlt] at h
          cases h
          exact ⟨List.mem_cons_self _ _, hx⟩
        · rw [if_neg hlt] at h
          cases h
          rcases ih hrec with ⟨h1, h2⟩
          exact ⟨List.mem_cons_of_mem _ h1, h2⟩
    · rw [if_neg hx] at h
      rcases ih h with ⟨h1, h2⟩
      exact ⟨List.mem_cons_of_mem _ h1, h2⟩

theorem selectMinGt_eq_none {t : Nat} {l : List Utxo}
    (h : selectMinGt t l = none) : ∀ u ∈ l, ¬t < u.value := by
  induction l with
  | nil => simp
  | cons x rest ih =>
    rw [selectMinGt] at h
    by_cases hx : t < x.value
    · rw [if_pos hx] at h
      rcases hrec : selectMinGt t rest with _ | v <;> rw [hrec] at h
      · simp at h
      · dsimp only at h
        split at h <;> simp at h
    · rw [if_neg hx] at h
      intro u hu
      rcases List.mem_cons.mp hu with rfl | hmem
      · exact hx
      · exact ih h u hmem

theorem greedyGo_spec :
    ∀ (fuel t : Nat) (avail : List Utxo), avail.length ≤ fuel → t ≤ utxoSum avail →
      avail.Perm ((greedyGo fuel t avail).1 ++ (greedyGo fuel t avail).2) ∧
      t ≤ utxoSum (greedyGo fuel t avail).1 := by
  intro fuel
  induction fuel with
  | zero =>
    intro t avail hlen hsum
    have havail : avail = [] := List.length_eq_zero.mp (Nat.le_zero.mp hlen)
    subst havail
    simp only [greedyGo]
    exact ⟨List.Perm.refl _, hsum⟩
  | succ fuel ih =>
    intro t avail hlen hsum
    match t with
    | 0 =>
      simp only [greedyGo]
      exact ⟨List.Perm.refl _, Nat.zero_le _⟩
    | t' + 1 =>
      rcases hmax : selectMaxLe (t' + 1) avail with _ | u
      · rcases hmin : selectMinGt (t' + 1) avail with _ | u
        · -- no UTXO at all: the set must be empty, contradicting the positive target
          have hempty : avail = [] := by
            cases avail with
            | nil => rfl
            | cons x rest =>
              have h1 := selectMaxLe_eq_none hmax x (List.mem_cons_self _ _)
              have h2 := selectMinGt_eq_none hmin x (List.mem_cons_self _ _)
              omega
          subst hempty
          simp [utxoSum] at hsum
        · -- overshoot pick: one UTXO larger than the target finishes the selection
          rcases selectMinGt_eq_some hmin with ⟨hmem, hgt⟩
          have hperm := List.perm_cons_erase hmem
          constructor
          · simpa [greedyGo, hmax, hmin] using hperm
          · simp only [greedyGo, hmax, hmin]
            rw [utxoSum_cons, utxoSum_nil]
            omega
      · -- normal pick: largest UTXO below the target, recurse on the remainder
        rcases selectMaxLe_eq_some hmax with ⟨hmem, hle⟩
        have hperm := List.perm_cons_erase hmem
        have herasesum : utxoSum (avail.erase u) = utxoSum avail - u.value := by
          have := utxoSum_perm hperm
          rw [utxoSum_cons] at this
          omega
        have hlen' : (avail.erase u).length ≤ fuel := by
          rw [List.length_erase_of_mem hmem]
          omega
        have hsum' : t' + 1 - u.value ≤ utxoSum (avail.erase u) := by omega
        rcases ih (t' + 1 - u.value) (avail.erase u) hlen' hsum' with ⟨hp, hs⟩
        constructor
        · simp only [greedyGo, hmax]
          rw [List.cons_append]
          exact hperm.trans (hp.cons u)
        · simp only [greedyGo, hmax]
          rw [utxoSum_cons]
          omega

theorem greedy_fail {target : Nat} {available : List Utxo}
    (h : utxoSum available < target) : greedy target available = ([], available) := by
  simp [greedy, h]

theorem greedy_spec {target : Nat} {available : List Utxo}
    (h : target ≤ utxoSum available) :
    available.Perm ((greedy target available).1 ++ (greedy target available).2) ∧
    target ≤ utxoSum (greedy target available).1 := by
  have hnot : ¬utxoSum available < target := Nat.not_lt_of_ge h
  simp only [greedy, hnot, if_false]
  exact greedyGo_spec available.length target available (le_refl _) h

/-- C4 (amended: a positive target is required for the selection to be
non-empty): for every duplicate-free non-empty UTXO set whose total value
is at least the positive target, greedy returns a non-empty selection
whose summed value is at least the target, drawn from the input set and
removed from the available set; on an unreachable target the set is
returned unmodified with an empty selection. -/
theorem claim_C4 (target : Nat) (available : List Utxo) (hnd : available.Nodup) :
    (1 ≤ target → available ≠ [] → target ≤ utxoSum available →
      (greedy target available).1 ≠ [] ∧
      target ≤ utxoSum (greedy target available).1 ∧
      (∀ u ∈ (greedy target available).1, u ∈ available) ∧
      (∀ u ∈ (greedy target available).1, u ∉ (greedy target available).2)) ∧
    (utxoSum available < target → greedy target available = ([], available)) := by
  constructor
  · intro hpos _ hsum
    rcases greedy_spec hsum with ⟨hperm, hs⟩
    have hnodup : ((greedy target available).1 ++ (greedy target available).2).Nodup :=
      hperm.nodup_iff.mp hnd
    rcases List.nodup_append.mp hnodup with ⟨_, _, hdisj⟩
    refine ⟨?_, hs, ?_, ?_⟩
    · intro hempty
      rw [hempty, utxoSum_nil] at hs
      omega
    · intro u hu
      exact hperm.mem_iff.mpr (List.mem_append_left _ hu)
    · intro u hu hu'
      exact hdisj hu hu'
  · exact greedy_fail

/-- Witness for C4 on a singleton set with an overshooting UTXO. -/
theorem claim_C4_witness :
    (greedy 3 [⟨⟨[], 0⟩, 5, 0⟩]).1 ≠ [] ∧ 3 ≤ utxoSum (greedy 3 [⟨⟨[], 0⟩, 5, 0⟩]).1 := by
  have h := (claim_C4 3 [⟨⟨[], 0⟩, 5, 0⟩] (by decide)).1 (by decide) (by decide) (by decide)
  exact ⟨h.1, h.2.1⟩

/-- Counterexample to C4 as stated: with target 0 the premises hold (the
set is non-empty and its total value is at least the target) yet the
selection is empty, so the claim's non-emptiness conclusion fails. -/
theorem claim_C4_counterexample :
    ([⟨⟨[], 0⟩, 5, 0⟩] : List Utxo) ≠ [] ∧
    0 ≤ utxoSum [⟨⟨[], 0⟩, 5, 0⟩] ∧
    ¬(greedy 0 [⟨⟨[], 0⟩, 5, 0⟩]).1 ≠ [] := by
  refine ⟨by decide, Nat.zero_le _, ?_⟩
  decide

/-! ## Transaction Builder: branch structure -/

theorem build_error_state (available : List Utxo) (requests : List (BitcoinAddress × Nat))
    (changeAddress : BitcoinAddress) (feeRate : Nat) (e : BuildTxError)
    (h : (build_unsigned_transaction available requests changeAddress feeRate).1 = .error e) :
    (build_unsigned_transaction available requests changeAddress feeRate).2 = available := by
  by_cases h1 : buildSel available requests = []
  · simp [build_unsigned_transaction, h1]
  · by_cases h2 : requests.length = 1 ∧
        buildAmount requests ≤ buildFee available requests changeAddress feeRate
    · simp [build_unsigned_transaction, h1, h2]
    · rcases hv : firstViolation requests (buildShares available requests changeAddress feeRate)
        with _ | p
      · simp [build_unsigned_transaction, h1, h2, hv] at h
      · obtain ⟨a, m⟩ := p
        simp [build_unsigned_transaction, h1, h2, hv]

theorem build_not_enough_funds (available : List Utxo) (requests : List (BitcoinAddress × Nat))
    (changeAddress : BitcoinAddress) (feeRate : Nat)
    (h : utxoSum available < buildAmount requests) :
    build_unsigned_transaction available requests changeAddress feeRate
      = (.error .NotEnoughFunds, available) := by
  have hsel : buildSel available requests = [] := by
    simp [buildSel, greedy_fail h]
  simp [build_unsigned_transaction, hsel]

theorem build_ok_parts {available : List Utxo} {requests : List (BitcoinAddress × Nat)}
    {changeAddress : BitcoinAddress} {feeRate : Nat} {tx : UnsignedTransaction}
    {co : Option ChangeOutput} {sel : List Utxo}
    (h : (build_unsigned_transaction available requests changeAddress feeRate).1
      = .ok (tx, co, sel)) :
    tx.outputs = buildFinalOutputs available requests changeAddress feeRate ∧
    co = (if buildSurplus available requests = 0 then none
          else some ⟨requests.length, buildChangeValue available requests⟩) ∧
    sel = buildSel available requests ∧
    (build_unsigned_transaction available requests changeAddress feeRate).2
      = buildAvailRest available requests := by
  by_cases h1 : buildSel available requests = []
  · simp [build_unsigned_transaction, h1] at h
  · by_cases h2 : requests.length = 1 ∧
        buildAmount requests ≤ buildFee available requests changeAddress feeRate
    · simp [build_unsigned_transaction, h1, h2] at h
    · rcases hv : firstViolation requests (buildShares available requests changeAddress feeRate)
        with _ | p
      · simp only [build_unsigned_transaction, h1, h2, hv, if_false, if_neg] at h ⊢
        simp at h
        obtain ⟨htx, hco, hsel⟩ := h
        exact ⟨htx ▸ rfl, hco.symm, hsel.symm, trivial⟩
      · obtain ⟨a, m⟩ := p
        simp [build_unsigned_transaction, h1, h2, hv] at h

/-- C1 (amended: the change output pays the full surplus, not surplus
minus fee, and the fee is deducted from the requested outputs as fair
shares): for every successful call with surplus at least MIN_CHANGE + fee,
the built transaction carries exactly one change output paying the whole
surplus to the change address, and each requested output pays its
requested amount minus its fair share of the fee. -/
theorem claim_C1 (available : List Utxo) (requests : List (BitcoinAddress × Nat))
    (changeAddress : BitcoinAddress) (feeRate : Nat) (tx : UnsignedTransaction)
    (co : Option ChangeOutput) (sel : List Utxo)
    (hok : (build_unsigned_transaction available requests changeAddress feeRate).1
      = .ok (tx, co, sel))
    (hchange : MIN_CHANGE + buildFee available requests changeAddress feeRate
      ≤ buildSurplus available requests) :
    co = some ⟨requests.length, buildSurplus available requests⟩ ∧
    tx.outputs = List.zipWith (fun (r : BitcoinAddress × Nat) s => TxOut.mk (r.2 - s) r.1)
        requests
        (distribute (buildFee available requests changeAddress feeRate) requests.length)
      ++ [⟨buildSurplus available requests, changeAddress⟩] := by
  obtain ⟨htx, hco, -, -⟩ := build_ok_parts hok
  have hMC : MIN_CHANGE ≤ buildSurplus available requests :=
    le_trans (Nat.le_add_right _ _) hchange
  have hpos : ¬buildSurplus available requests = 0 := by
    have hm : 0 < MIN_CHANGE := by norm_num [MIN_CHANGE]
    omega
  have hcv : buildChangeValue available requests = buildSurplus available requests := by
    rw [buildChangeValue, if_neg hpos]
    exact Nat.max_eq_left hMC
  have hded : buildDeduct available requests changeAddress feeRate
      = buildFee available requests changeAddress feeRate := by
    rw [buildDeduct, Nat.sub_eq_zero_of_le hMC, Nat.add_zero]
  constructor
  · rw [hco, if_neg hpos, hcv]
  · rw [htx, buildFinalOutputs, if_neg hpos, buildShares, hded, hcv]

set_option maxRecDepth 100000 in
/-- Witness for C1: one 1,000,000-satoshi input, one 20,000-satoshi
request, fee 210; the change output pays the full 980,000 surplus. -/
theorem claim_C1_witness :
    (some ⟨1, 980000⟩ : Option ChangeOutput)
      = some ⟨[((exAddrA : BitcoinAddress), (20000 : Nat))].length,
          buildSurplus [exUBig] [(exAddrA, 20000)]⟩ ∧
    ([⟨19790, exAddrA⟩, ⟨980000, exAddrM⟩] : List TxOut)
      = List.zipWith (fun (r : BitcoinAddress × Nat) s => TxOut.mk (r.2 - s) r.1)
          [(exAddrA, 20000)]
          (distribute (buildFee [exUBig] [(exAddrA, 20000)] exAddrM 1500)
            [((exAddrA : BitcoinAddress), (20000 : Nat))].length)
        ++ [⟨buildSurplus [exUBig] [(exAddrA, 20000)], exAddrM⟩] :=
  claim_C1 [exUBig] [(exAddrA, 20000)] exAddrM 1500
    ⟨[utxoToInput exUBig], [⟨19790, exAddrA⟩, ⟨980000, exAddrM⟩], 0⟩
    (some ⟨1, 980000⟩) [exUBig] (by decide) (by decide)

set_option maxRecDepth 100000 in
/-- Counterexample to C1 as stated: at this input the call succeeds,
inputs exceed the target, and surplus - fee is at least MIN_CHANGE, yet
the change output pays the surplus (980,000) rather than surplus - fee
(979,790), and the requested output is docked by the fee rather than kept
at its requested amount. -/
theorem claim_C1_counterexample :
    (build_unsigned_transaction [exUBig] [(exAddrA, 20000)] exAddrM 1500).1
      = .ok (⟨[utxoToInput exUBig], [⟨19790, exAddrA⟩, ⟨980000, exAddrM⟩], 0⟩,
             some ⟨1, 980000⟩, [exUBig]) ∧
    MIN_CHANGE + buildFee [exUBig] [(exAddrA, 20000)] exAddrM 1500
      ≤ buildSurplus [exUBig] [(exAddrA, 20000)] ∧
    980000 ≠ buildSurplus [exUBig] [(exAddrA, 20000)]
      - buildFee [exUBig] [(exAddrA, 20000)] exAddrM 1500 ∧
    (19790 : Nat) ≠ 20000 := by
  refine ⟨by decide, by decide, by decide, by decide⟩

/-- C2 (amended: a change output is absent only when the surplus is zero;
a positive surplus yields a change output of max(surplus, MIN_CHANGE)):
for every successful call, the total fee + (MIN_CHANGE - surplus when
surplus < MIN_CHANGE, else 0) is deducted from the requested outputs as
fair shares of the Fair-Share Distributor with the remainder on the
earliest outputs, and the change output (present exactly when surplus is
positive) pays max(surplus, MIN_CHANGE). -/
theorem claim_C2 (available : List Utxo) (requests : List (BitcoinAddress × Nat))
    (changeAddress : BitcoinAddress) (feeRate : Nat) (tx : UnsignedTransaction)
    (co : Option ChangeOutput) (sel : List Utxo)
    (hok : (build_unsigned_transaction available requests changeAddress feeRate).1
      = .ok (tx, co, sel)) :
    tx.outputs = List.zipWith (fun (r : BitcoinAddress × Nat) s => TxOut.mk (r.2 - s) r.1)
        requests
        (distribute (buildFee available requests changeAddress feeRate
            + (MIN_CHANGE - buildSurplus available requests)) requests.length)
      ++ (if buildSurplus available requests = 0 then []
          else [⟨max (buildSurplus available requests) MIN_CHANGE, changeAddress⟩]) ∧
    co = (if buildSurplus available requests = 0 then none
          else some ⟨requests.length, max (buildSurplus available requests) MIN_CHANGE⟩) := by
  obtain ⟨htx, hco, -, -⟩ := build_ok_parts hok
  by_cases hs : buildSurplus available requests = 0
  · constructor
    · rw [htx, buildFinalOutputs, if_pos hs, buildShares, buildDeduct, if_pos hs]
    · rw [hco, if_pos hs, if_pos hs]
  · constructor
    · rw [htx, buildFinalOutputs, if_neg hs, buildShares, buildDeduct, if_neg hs,
        buildChangeValue, if_neg hs]
    · rw [hco, if_neg hs, if_neg hs, buildChangeValue, if_neg hs]

set_option maxRecDepth 100000 in
/-- Witness for C2 at the test_min_change_amount input: both requested
outputs are docked by the fair share 1695 of fee + (MIN_CHANGE - 1), and
the change output pays exactly MIN_CHANGE. -/
theorem claim_C2_witness :
    ([⟨98305, exAddrA⟩, ⟨98304, exAddrB⟩, ⟨MIN_CHANGE, exAddrM⟩] : List TxOut)
      = List.zipWith (fun (r : BitcoinAddress × Nat) s => TxOut.mk (r.2 - s) r.1)
          [(exAddrA, 100000), (exAddrB, 99999)]
          (distribute (buildFee [exU0, exU1] [(exAddrA, 100000), (exAddrB, 99999)] exAddrM 10000
              + (MIN_CHANGE - buildSurplus [exU0, exU1] [(exAddrA, 100000), (exAddrB, 99999)])) 2)
        ++ (if buildSurplus [exU0, exU1] [(exAddrA, 100000), (exAddrB, 99999)] = 0 then []
            else [⟨max (buildSurplus [exU0, exU1] [(exAddrA, 100000), (exAddrB, 99999)])
                MIN_CHANGE, exAddrM⟩]) := by
  have h := claim_C2 [exU0, exU1] [(exAddrA, 100000), (exAddrB, 99999)] exAddrM 10000
    ⟨[utxoToInput exU1, utxoToInput exU0],
     [⟨98305, exAddrA⟩, ⟨98304, exAddrB⟩, ⟨MIN_CHANGE, exAddrM⟩], 0⟩
    (some ⟨2, MIN_CHANGE⟩) [exU1, exU0] (by decide)
  exact h.1

set_option maxRecDepth 100000 in
/-- Counterexample to C2 as stated: at the test_min_change_amount input
the surplus (1) minus the fee is below MIN_CHANGE, yet the transaction
does contain a change output (of exactly MIN_CHANGE), contradicting the
claimed absence of a change output. -/
theorem claim_C2_counterexample :
    (build_unsigned_transaction [exU0, exU1] [(exAddrA, 100000), (exAddrB, 99999)] exAddrM
        10000).1
      = .ok (⟨[utxoToInput exU1, utxoToInput exU0],
              [⟨98305, exAddrA⟩, ⟨98304, exAddrB⟩, ⟨MIN_CHANGE, exAddrM⟩], 0⟩,
             some ⟨2, MIN_CHANGE⟩, [exU1, exU0]) ∧
    buildSurplus [exU0, exU1] [(exAddrA, 100000), (exAddrB, 99999)]
      < MIN_CHANGE + buildFee [exU0, exU1] [(exAddrA, 100000), (exAddrB, 99999)] exAddrM 10000 ∧
    (some (⟨2, MIN_CHANGE⟩ : ChangeOutput)) ≠ none ∧
    ([⟨98305, exAddrA⟩, ⟨98304, exAddrB⟩, ⟨MIN_CHANGE, exAddrM⟩] : List TxOut).length = 3 := by
  refine ⟨by decide, by decide, by decide, by decide⟩

/-- C3: every error return of build_unsigned_transaction leaves the
available UTXO set exactly as it was, and a request total exceeding the
total available value always fails with NotEnoughFunds, unchanged set
included. -/
theorem claim_C3 (available : List Utxo) (requests : List (BitcoinAddress × Nat))
    (changeAddress : BitcoinAddress) (feeRate : Nat) :
    (∀ e, (build_unsigned_transaction available requests changeAddress feeRate).1 = .error e →
      (build_unsigned_transaction available requests changeAddress feeRate).2 = available) ∧
    (utxoSum available < buildAmount requests →
      build_unsigned_transaction available requests changeAddress feeRate
        = (.error .NotEnoughFunds, available)) :=
  ⟨fun e h => build_error_state available requests changeAddress feeRate e h,
   fun h => build_not_enough_funds available requests changeAddress feeRate h⟩

/-- Witness for C3: requesting 300,000 from a single 100,000 UTXO fails
with NotEnoughFunds and leaves the set unchanged. -/
theorem claim_C3_witness :
    build_unsigned_transaction [exU0] [(exAddrA, 300000)] exAddrM 1500
      = (.error .NotEnoughFunds, [exU0]) :=
  (claim_C3 [exU0] [(exAddrA, 300000)] exAddrM 1500).2 (by decide)

set_option maxRecDepth 100000 in
/-- C8 (amended: the single-request amount-too-low check takes precedence,
as the build_tx_does_not_modify_utxos_on_error test pins): whenever the
selection succeeds, the call is not a single request whose total is at or
below the fee, and the fair-share apportionment would reduce some
requested output to zero or below, the call fails with ZeroOutput naming
the first such request's address and original amount and the available
set is returned in its pre-call state; in particular, with one
100,000-satoshi UTXO and requests [(A,99900),(B,100)] the result is
ZeroOutput{B,100} with the UTXO set unchanged. -/
theorem claim_C8 :
    (∀ (available : List Utxo) (requests : List (BitcoinAddress × Nat))
        (changeAddress : BitcoinAddress) (feeRate : Nat) (a : BitcoinAddress) (m : Nat),
      buildSel available requests ≠ [] →
      ¬(requests.length = 1 ∧
        buildAmount requests ≤ buildFee available requests changeAddress feeRate) →
      firstViolation requests (buildShares available requests changeAddress feeRate)
        = some (a, m) →
      build_unsigned_transaction available requests changeAddress feeRate
        = (.error (.ZeroOutput a m), available)) ∧
    build_unsigned_transaction [exU0] [(exAddrA, 99900), (exAddrB, 100)] exAddrM 10000
      = (.error (.ZeroOutput exAddrB 100), [exU0]) := by
  constructor
  · intro available requests changeAddress feeRate a m h1 h2 h3
    simp [build_unsigned_transaction, h1, h2, h3]
  · decide

set_option maxRecDepth 100000 in
/-- Witness for C8 on a second input: a 200,000-satoshi UTXO and requests
[(A,50000),(B,60)], where B's fair share of the fee zeroes it out. -/
theorem claim_C8_witness :
    build_unsigned_transaction [exUMid] [(exAddrA, 50000), (exAddrB, 60)] exAddrM 2000
      = (.error (.ZeroOutput exAddrB 60), [exUMid]) :=
  claim_C8.1 [exUMid] [(exAddrA, 50000), (exAddrB, 60)] exAddrM 2000 exAddrB 60
    (by decide) (by decide) (by decide)

set_option maxRecDepth 100000 in
/-- Counterexample to C8 as stated: with a single request of 1 satoshi the
fee share would certainly zero the output, yet the call fails with
AmountTooLow, not ZeroOutput, because the amount-too-low check precedes
apportionment. -/
theorem claim_C8_counterexample :
    (build_unsigned_transaction [exU0] [(exAddrA, 1)] exAddrM 1500).1
        = .error .AmountTooLow ∧
    (∃ p ∈ [((exAddrA : BitcoinAddress), (1 : Nat))].zip
        (buildShares [exU0] [(exAddrA, 1)] exAddrM 1500), p.1.2 ≤ p.2) ∧
    ∀ a m, (build_unsigned_transaction [exU0] [(exAddrA, 1)] exAddrM 1500).1
      ≠ .error (.ZeroOutput a m) := by
  refine ⟨by decide, by decide, ?_⟩
  intro a m h
  have h2 : (build_unsigned_transaction [exU0] [(exAddrA, 1)] exAddrM 1500).1
      = .error .AmountTooLow := by decide
  rw [h2] at h
  exact absurd (Except.error.inj h) (by simp)

set_option maxRecDepth 100000 in
/-- C9: at the test_min_change_amount input (two 100,000 UTXOs, requests
[(A,100000),(B,99999)], change address C, fee rate 10,000 yielding fee
2390) the build succeeds with exactly three outputs: A and B docked by
fee shares 1695 and 1695 (differing by at most one), and the change
output pinned to exactly MIN_CHANGE. -/
theorem claim_C9 :
    (build_unsigned_transaction [exU0, exU1] [(exAddrA, 100000), (exAddrB, 99999)] exAddrM
        10000).1
      = .ok (⟨[utxoToInput exU1, utxoToInput exU0],
              [⟨98305, exAddrA⟩, ⟨98304, exAddrB⟩, ⟨MIN_CHANGE, exAddrM⟩], 0⟩,
             some ⟨2, MIN_CHANGE⟩, [exU1, exU0]) ∧
    buildFee [exU0, exU1] [(exAddrA, 100000), (exAddrB, 99999)] exAddrM 10000 = 2390 ∧
    (100000 - 98305) ≤ (99999 - 98304) + 1 ∧
    (99999 - 98304) ≤ (100000 - 98305) + 1 := by
  refine ⟨by decide, by decide, by decide, by decide⟩

/-- C10: whenever the build succeeds and reports a change output, that
output is the last one of the transaction: its vout is the output count
minus one and the last output pays its value to the change address. -/
theorem claim_C10 (available : List Utxo) (requests : List (BitcoinAddress × Nat))
    (changeAddress : BitcoinAddress) (feeRate : Nat) (tx : UnsignedTransaction)
    (co : ChangeOutput) (sel avail' : List Utxo)
    (h : build_unsigned_transaction available requests changeAddress feeRate
      = (.ok (tx, some co, sel), avail')) :
    co.vout = tx.outputs.length - 1 ∧
    tx.outputs.getLast? = some ⟨co.value, changeAddress⟩ := by
  have h1 : (build_unsigned_transaction available requests changeAddress feeRate).1
      = .ok (tx, some co, sel) := by rw [h]
  obtain ⟨htx, hco, -, -⟩ := build_ok_parts h1
  by_cases hs : buildSurplus available requests = 0
  · rw [if_pos hs] at hco
    cases hco
  · rw [if_neg hs] at hco
    have hco' : co = ⟨requests.length, buildChangeValue available requests⟩ :=
      Option.some.inj hco
    have houts : tx.outputs
        = List.zipWith (fun (r : BitcoinAddress × Nat) s => TxOut.mk (r.2 - s) r.1) requests
            (buildShares available requests changeAddress feeRate)
          ++ [⟨buildChangeValue available requests, changeAddress⟩] := by
      rw [htx, buildFinalOutputs, if_neg hs]
    have hzlen : (List.zipWith (fun (r : BitcoinAddress × Nat) s => TxOut.mk (r.2 - s) r.1)
        requests (buildShares available requests changeAddress feeRate)).length
        = requests.length := by
      rw [List.length_zipWith, buildShares, distribute_length, Nat.min_self]
    constructor
    · rw [houts, List.length_append, hzlen, hco']
      simp
    · rw [houts, hco']
      simp

set_option maxRecDepth 100000 in
/-- Witness for C10 at the test_min_change_amount input. -/
theorem claim_C10_witness :
    (⟨2, MIN_CHANGE⟩ : ChangeOutput).vout
        = ([⟨98305, exAddrA⟩, ⟨98304, exAddrB⟩, ⟨MIN_CHANGE, exAddrM⟩] : List TxOut).length - 1 ∧
    ([⟨98305, exAddrA⟩, ⟨98304, exAddrB⟩, ⟨MIN_CHANGE, exAddrM⟩] : List TxOut).getLast?
        = some ⟨(⟨2, MIN_CHANGE⟩ : ChangeOutput).value, exAddrM⟩ :=
  claim_C10 [exU0, exU1] [(exAddrA, 100000), (exAddrB, 99999)] exAddrM 10000
    ⟨[utxoToInput exU1, utxoToInput exU0],
     [⟨98305, exAddrA⟩, ⟨98304, exAddrB⟩, ⟨MIN_CHANGE, exAddrM⟩], 0⟩
    ⟨2, MIN_CHANGE⟩ [exU1, exU0] [] (by decide)

/-! ## Segwit Sighash Engine vs the canonical BIP143 preimage -/

theorem u32LE_eq (n : Nat) :
    u32LEBytes n = (List.range 4).map (fun j => n / 256 ^ j % 256) := by
  have hr : List.range 4 = [0, 1, 2, 3] := by decide
  rw [hr]
  simp [u32LEBytes]

theorem u64LE_eq (n : Nat) :
    u64LEBytes n = (List.range 8).map (fun j => n / 256 ^ j % 256) := by
  have hr : List.range 8 = [0, 1, 2, 3, 4, 5, 6, 7] := by decide
  rw [hr]
  simp [u64LEBytes]

theorem flatMapBytes_eq_foldr_map {α : Type} (f : α → List Nat) (l : List α) :
    flatMapBytes f l = (l.map f).foldr (· ++ ·) [] := by
  induction l with
  | nil => rfl
  | cons x xs ih => simp [flatMapBytes, List.foldr] at ih ⊢; exact ih

theorem encodeTxOut_eq :
    encodeTxOut = fun o => (List.range 8).map (fun j => o.value / 256 ^ j % 256)
      ++ (varint (scriptPubKey o.address).length ++ scriptPubKey o.address) := by
  funext o
  simp [encodeTxOut, u64LE_eq, List.append_assoc]

/-- C5: for every unsigned transaction, input index and 20-byte public-key
hash, the engine's sighash preimage bytes are byte-for-byte the canonical
BIP143 serialization (P2WPKH script code, spent value, SIGHASH_ALL), and
the sighash is the double SHA-256 of that preimage. -/
theorem claim_C5 (tx : UnsignedTransaction) (i : Nat) (pkhash : List Nat)
    (hlen : pkhash.length = 20) :
    (TxSigHasher.new tx).encodeSighashData i pkhash = bip143Preimage tx i pkhash ∧
    (TxSigHasher.new tx).sighash i pkhash = sha256d (bip143Preimage tx i pkhash) := by
  have hdata : (TxSigHasher.new tx).encodeSighashData i pkhash = bip143Preimage tx i pkhash := by
    simp only [TxSigHasher.encodeSighashData, TxSigHasher.new, bip143Preimage,
      flatMapBytes_eq_foldr_map, u32LE_eq, u64LE_eq, encodeOutPoint, p2wpkhScriptCode,
      encodeTxOut_eq]
    norm_num [hlen, varint, List.append_assoc]
  exact ⟨hdata, by rw [TxSigHasher.sighash, hdata]⟩

/-- Witness for C5 on a one-input one-output transaction with a concrete
20-byte hash. -/
theorem claim_C5_witness :
    (TxSigHasher.new exTx).encodeSighashData 0 (List.replicate 20 3)
      = bip143Preimage exTx 0 (List.replicate 20 3) ∧
    (TxSigHasher.new exTx).sighash 0 (List.replicate 20 3)
      = sha256d (bip143Preimage exTx 0 (List.replicate 20 3)) :=
  claim_C5 exTx 0 (List.replicate 20 3) (by decide)

/-! ## Positional digit strings: round-trip lemmas -/

theorem beToNat_from (b : Nat) (l : List Nat) (acc : Nat) :
    l.foldl (fun a d => a * b + d) acc = acc * b ^ l.length + beToNat b l := by
  induction l generalizing acc with
  | nil => simp [beToNat]
  | cons d rest ih =>
    have h1 : (d :: rest).foldl (fun a d => a * b + d) acc
        = rest.foldl (fun a d => a * b + d) (acc * b + d) := rfl
    have h2 : beToNat b (d :: rest) = rest.foldl (fun a d => a * b + d) d := by
      simp [beToNat]
    rw [h1, ih, h2, ih]
    simp only [List.length_cons, pow_succ]
    ring

theorem beToNat_cons (b d : Nat) (l : List Nat) :
    beToNat b (d :: l) = d * b ^ l.length + beToNat b l := by
  have h : beToNat b (d :: l) = l.foldl (fun a x => a * b + x) d := by
    simp [beToNat]
  rw [h, beToNat_from]

theorem beToNat_append (b : Nat) (l1 l2 : List Nat) :
    beToNat b (l1 ++ l2) = beToNat b l1 * b ^ l2.length + beToNat b l2 := by
  have h : beToNat b (l1 ++ l2) = l2.foldl (fun a x => a * b + x) (beToNat b l1) := by
    simp [beToNat, List.foldl_append]
  rw [h, beToNat_from]

theorem beToNat_replicate_zero (b z : Nat) : beToNat b (List.replicate z 0) = 0 := by
  induction z with
  | zero => rfl
  | succ z ih =>
    rw [List.replicate_succ, beToNat_cons, ih]
    simp

theorem beToNat_lt (b : Nat) (hb : 1 ≤ b) (l : List Nat) (h : ∀ x ∈ l, x < b) :
    beToNat b l < b ^ l.length := by
  induction l with
  | nil => simp [beToNat]
  | cons d rest ih =>
    rw [beToNat_cons]
    have hd : d < b := h d (List.mem_cons_self _ _)
    have hr : beToNat b rest < b ^ rest.length :=
      ih (fun x hx => h x (List.mem_cons_of_mem _ hx))
    have : d * b ^ rest.length + beToNat b rest < (d + 1) * b ^ rest.length := by
      rw [Nat.succ_mul]
      omega
    calc d * b ^ rest.length + beToNat b rest < (d + 1) * b ^ rest.length := this
      _ ≤ b * b ^ rest.length := Nat.mul_le_mul_right _ hd
      _ = b ^ (rest.length + 1) := by ring
      _ = b ^ (d :: rest).length := by simp

theorem beToNat_head_lower (b : Nat) (d : Nat) (l : List Nat) (hd : d ≠ 0) :
    b ^ l.length ≤ beToNat b (d :: l) := by
  rw [beToNat_cons]
  have : 1 * b ^ l.length ≤ d * b ^ l.length := Nat.mul_le_mul_right _ (by omega)
  omega

theorem natToBaseBE_zero (b : Nat) (fuel : Nat) : natToBaseBE b fuel 0 = [] := by
  cases fuel <;> simp [natToBaseBE]

theorem beToNat_natToBaseBE (b : Nat) (hb : 2 ≤ b) :
    ∀ (fuel n : Nat), n < b ^ fuel → beToNat b (natToBaseBE b fuel n) = n := by
  intro fuel
  induction fuel with
  | zero =>
    intro n hn
    have h0 : n = 0 := by simpa using hn
    subst h0
    rfl
  | succ fuel ih =>
    intro n hn
    by_cases h0 : n = 0
    · subst h0
      rw [natToBaseBE_zero]
      rfl
    · rw [natToBaseBE, if_neg h0, beToNat_append]
      have hdiv : n / b < b ^ fuel := by
        rw [Nat.div_lt_iff_lt_mul (by omega : 0 < b)]
        calc n < b ^ (fuel + 1) := hn
          _ = b ^ fuel * b := by ring
      rw [ih (n / b) hdiv]
      have hmod : beToNat b [n % b] = n % b := by simp [beToNat]
      rw [hmod]
      have hlen : ([n % b] : List Nat).length = 1 := rfl
      rw [hlen, pow_one, Nat.mul_comm]
      exact Nat.div_add_mod n b

theorem natToBaseBE_digits_lt (b : Nat) (hb : 2 ≤ b) :
    ∀ (fuel n : Nat), ∀ x ∈ natToBaseBE b fuel n, x < b := by
  intro fuel
  induction fuel with
  | zero => intro n x hx; simp [natToBaseBE] at hx
  | succ fuel ih =>
    intro n x hx
    by_cases h0 : n = 0
    · subst h0; rw [natToBaseBE, if_pos rfl] at hx; simp at hx
    · rw [natToBaseBE, if_neg h0] at hx
      rcases List.mem_append.mp hx with h | h
      · exact ih (n / b) x h
      · simp at h
        subst h
        exact Nat.mod_lt _ (by omega)

theorem natToBaseBE_ne_nil (b : Nat) (fuel n : Nat) (h0 : n ≠ 0) (hf : 1 ≤ fuel) :
    natToBaseBE b fuel n ≠ [] := by
  match fuel, hf with
  | fuel + 1, _ =>
    rw [natToBaseBE, if_neg h0]
    simp

theorem headD_append_of_ne_nil {α : Type} (l l' : List α) (a : α) (h : l ≠ []) :
    (l ++ l').headD a = l.headD a := by
  cases l with
  | nil => exact absurd rfl h
  | cons x xs => rfl

theorem natToBaseBE_headD (b : Nat) (hb : 2 ≤ b) :
    ∀ (fuel n : Nat), n < b ^ fuel → (natToBaseBE b fuel n).headD 1 ≠ 0 := by
  intro fuel
  induction fuel with
  | zero => intro n _; simp [natToBaseBE]
  | succ fuel ih =>
    intro n hn
    by_cases h0 : n = 0
    · subst h0; rw [natToBaseBE_zero]; simp
    · rw [natToBaseBE, if_neg h0]
      by_cases hq : n / b = 0
      · rw [hq, natToBaseBE_zero]
        have hnb : n < b := (Nat.div_eq_zero_iff (by omega)).mp hq
        simp [Nat.mod_eq_of_lt hnb, h0]
      · have hq' : n / b < b ^ fuel := by
          rw [Nat.div_lt_iff_lt_mul (by omega : 0 < b)]
          calc n < b ^ (fuel + 1) := hn
            _ = b ^ fuel * b := by ring
        have hne : natToBaseBE b fuel (n / b) ≠ [] := by
          have hf : 1 ≤ fuel := by
            rcases Nat.eq_zero_or_pos fuel with h | h
            · subst h; simp at hq'; omega
            · exact h
          exact natToBaseBE_ne_nil b fuel (n / b) hq hf
        rw [headD_append_of_ne_nil _ _ _ hne]
        exact ih (n / b) hq'

theorem natToBaseBE_beToNat (b : Nat) (hb : 2 ≤ b) :
    ∀ (l : List Nat) (fuel : Nat), (∀ x ∈ l, x < b) → l.headD 1 ≠ 0 →
      beToNat b l < b ^ fuel → natToBaseBE b fuel (beToNat b l) = l := by
  intro l
  induction l using List.reverseRecOn with
  | nil =>
    intro fuel _ _ _
    exact natToBaseBE_zero b fuel
  | append_singleton init d ih =>
    intro fuel hin hhead hlt
    have hd : d < b := hin d (by simp)
    have hn : beToNat b (init ++ [d]) = beToNat b init * b + d := by
      rw [beToNat_append]
      have h1 : beToNat b [d] = d := by simp [beToNat]
      have h2 : ([d] : List Nat).length = 1 := rfl
      rw [h1, h2, pow_one]
    have hnz : beToNat b (init ++ [d]) ≠ 0 := by
      cases init with
      | nil =>
        have : (([] : List Nat) ++ [d]).headD 1 = d := rfl
        rw [this] at hhead
        simpa [beToNat] using hhead
      | cons x rest =>
        have hx : x ≠ 0 := by
          have : ((x :: rest) ++ [d]).headD 1 = x := rfl
          rw [this] at hhead
          exact hhead
        have hlow : b ^ (rest ++ [d]).length ≤ beToNat b ((x :: rest) ++ [d]) := by
          have : (x :: rest) ++ [d] = x :: (rest ++ [d]) := rfl
          rw [this]
          exact beToNat_head_lower b x (rest ++ [d]) hx
        have hpow : 1 ≤ b ^ (rest ++ [d]).length := Nat.one_le_pow _ _ (by omega)
        omega
    have hfuel : 1 ≤ fuel := by
      rcases Nat.eq_zero_or_pos fuel with h | h
      · subst h
        simp at hlt
        omega
      · exact h
    match fuel, hfuel with
    | fuel + 1, _ =>
      rw [natToBaseBE, if_neg hnz, hn]
      have hdivd : (beToNat b init * b + d) / b = beToNat b init := by
        rw [Nat.mul_comm, Nat.mul_add_div (by omega : 0 < b), Nat.div_eq_of_lt hd,
          Nat.add_zero]
      have hmodd : (beToNat b init * b + d) % b = d := by
        rw [Nat.mul_comm, Nat.mul_add_mod, Nat.mod_eq_of_lt hd]
      rw [hdivd, hmodd]
      have hinit : natToBaseBE b fuel (beToNat b init) = init := by
        cases init with
        | nil =>
          have : beToNat b ([] : List Nat) = 0 := rfl
          rw [this, natToBaseBE_zero]
        | cons x rest =>
          apply ih
          · intro y hy
            exact hin y (List.mem_append_left _ hy)
          · have : ((x :: rest) ++ [d]).headD 1 = x := rfl
            rw [this] at hhead
            exact hhead
          · have hq : beToNat b (x :: rest) * b + d < b ^ (fuel + 1) := by
              rw [← hn]
              exact hlt
            have : beToNat b (x :: rest) < b ^ fuel := by
              rw [pow_succ] at hq
              by_contra hcon
              push_neg at hcon
              have : b ^ fuel * b ≤ beToNat b (x :: rest) * b :=
                Nat.mul_le_mul_right _ hcon
              omega
            exact this
      rw [hinit]

theorem clz_decomp (l : List Nat) :
    List.replicate (clz l) 0 ++ List.drop (clz l) l = l := by
  induction l with
  | nil => rfl
  | cons d rest ih =>
    by_cases hd : d = 0
    · subst hd
      rw [clz, if_pos rfl, List.replicate_succ]
      simpa using ih
    · rw [clz, if_neg hd]
      rfl

theorem clz_drop_headD (l : List Nat) : (List.drop (clz l) l).headD 1 ≠ 0 := by
  induction l with
  | nil => simp
  | cons d rest ih =>
    by_cases hd : d = 0
    · subst hd
      rw [clz, if_pos rfl]
      simpa using ih
    · rw [clz, if_neg hd]
      simpa using hd

theorem clz_le_length (l : List Nat) : clz l ≤ l.length := by
  induction l with
  | nil => simp [clz]
  | cons d rest ih =>
    by_cases hd : d = 0
    · subst hd
      rw [clz, if_pos rfl]
      simpa using ih
    · rw [clz, if_neg hd]
      simp

theorem beToNat_drop_clz (b : Nat) (l : List Nat) :
    beToNat b (List.drop (clz l) l) = beToNat b l := by
  conv_rhs => rw [← clz_decomp l]
  rw [beToNat_append, beToNat_replicate_zero]
  simp

theorem natToBaseBE_length_le (b : Nat) (hb : 2 ≤ b) :
    ∀ (fuel n m : Nat), n < b ^ m → (natToBaseBE b fuel n).length ≤ m := by
  intro fuel
  induction fuel with
  | zero => intro n m _; simp [natToBaseBE]
  | succ fuel ih =>
    intro n m hn
    by_cases h0 : n = 0
    · subst h0; rw [natToBaseBE_zero]; simp
    · rw [natToBaseBE, if_neg h0]
      have hm : 1 ≤ m := by
        rcases Nat.eq_zero_or_pos m with h | h
        · subst h; simp at hn; omega
        · exact h
      match m, hm with
      | m + 1, _ =>
        have hdiv : n / b < b ^ m := by
          rw [Nat.div_lt_iff_lt_mul (by omega : 0 < b)]
          calc n < b ^ (m + 1) := hn
            _ = b ^ m * b := by ring
        have := ih (n / b) m hdiv
        simp only [List.length_append, List.length_cons, List.length_nil]
        omega

theorem fromNatBE_length (b : Nat) (hb : 2 ≤ b) (k n : Nat) (h : n < b ^ k) :
    (fromNatBE b k n).length = k := by
  rw [fromNatBE]
  have := natToBaseBE_length_le b hb n n k h
  simp only [List.length_append, List.length_replicate]
  omega

theorem fromNatBE_beToNat (b : Nat) (hb : 2 ≤ b) (l : List Nat) (k : Nat)
    (hlen : l.length = k) (hin : ∀ x ∈ l, x < b) :
    fromNatBE b k (beToNat b l) = l := by
  have hd : natToBaseBE b (beToNat b l) (beToNat b l) = List.drop (clz l) l := by
    rw [← beToNat_drop_clz b l]
    apply natToBaseBE_beToNat b hb
    · intro x hx
      exact hin x (List.drop_subset _ _ hx)
    · exact clz_drop_headD l
    · by_cases h0 : beToNat b (List.drop (clz l) l) = 0
      · rw [h0]
        simp
      · exact Nat.lt_pow_self (by omega) _
  rw [fromNatBE, hd]
  have hleneq : (List.drop (clz l) l).length = l.length - clz l := List.length_drop _ _
  have hclz : clz l ≤ l.length := clz_le_length l
  have : k - (List.drop (clz l) l).length = clz l := by omega
  rw [this]
  exact clz_decomp l

theorem beToNat_fromNatBE (b : Nat) (hb : 2 ≤ b) (k n : Nat) (h : n < b ^ k) :
    beToNat b (fromNatBE b k n) = n := by
  rw [fromNatBE, beToNat_append, beToNat_replicate_zero]
  simp only [Nat.zero_mul, Nat.zero_add]
  exact beToNat_natToBaseBE b hb n n (Nat.lt_pow_self (by omega) n)

/-! ## SHA-256 output shape -/

theorem shaRound_length (st : List Nat) (kw : Nat) : (shaRound st kw).length = st.length := by
  rcases st with _ | ⟨a, _ | ⟨b, _ | ⟨c, _ | ⟨d, _ | ⟨e, _ | ⟨f, _ | ⟨g, _ | ⟨h, _ | ⟨i, t⟩⟩⟩⟩⟩⟩⟩⟩⟩ <;>
    rfl

theorem foldl_shaRound_length (kws : List Nat) :
    ∀ st : List Nat, (kws.foldl shaRound st).length = st.length := by
  induction kws with
  | nil => intro st; rfl
  | cons k rest ih =>
    intro st
    have := ih (shaRound st k)
    simp only [List.foldl]
    rw [this, shaRound_length]

theorem mem_zipWith_addmod {M : Nat} (hM : 0 < M) :
    ∀ (l1 l2 : List Nat), ∀ x ∈ List.zipWith (fun a b => (a + b) % M) l1 l2, x < M := by
  intro l1
  induction l1 with
  | nil => intro l2 x hx; simp at hx
  | cons a as ih =>
    intro l2 x hx
    cases l2 with
    | nil => simp at hx
    | cons b bs =>
      simp only [List.zipWith_cons_cons, List.mem_cons] at hx
      rcases hx with rfl | hx
      · exact Nat.mod_lt _ hM
      · exact ih bs x hx

theorem shaCompress_length (st block : List Nat) :
    (shaCompress st block).length = st.length := by
  rw [shaCompress]
  rw [List.length_zipWith, foldl_shaRound_length]
  simp

theorem shaCompress_bytes_lt (st block : List Nat) :
    ∀ x ∈ shaCompress st block, x < 4294967296 := by
  rw [shaCompress]
  exact mem_zipWith_addmod (by norm_num) _ _

theorem sha_state_facts :
    ∀ (chunks : List (List Nat)) (acc : List Nat), acc.length = 8 → (∀ x ∈ acc, x < 4294967296) →
      (chunks.foldl shaCompress acc).length = 8 ∧
      ∀ x ∈ chunks.foldl shaCompress acc, x < 4294967296 := by
  intro chunks
  induction chunks with
  | nil => intro acc h1 h2; exact ⟨h1, h2⟩
  | cons c rest ih =>
    intro acc h1 h2
    apply ih
    · rw [shaCompress_length, h1]
    · exact shaCompress_bytes_lt acc c

theorem fromNatBE_bytes_lt (b : Nat) (hb : 2 ≤ b) (k n : Nat) :
    ∀ x ∈ fromNatBE b k n, x < b := by
  intro x hx
  rw [fromNatBE] at hx
  rcases List.mem_append.mp hx with h | h
  · rw [List.eq_of_mem_replicate h]
    omega
  · exact natToBaseBE_digits_lt b hb n n x h

theorem sha256_length (msg : List Nat) : (sha256 msg).length = 32 := by
  rw [sha256]
  have hfacts := sha_state_facts (chunks64 (shaPad msg).length (shaPad msg)) shaH0
    (by rfl) (by decide)
  rcases hfacts with ⟨hlen, hbound⟩
  generalize hhs : (chunks64 (shaPad msg).length (shaPad msg)).foldl shaCompress shaH0 = hs
  rw [hhs] at hlen hbound
  have : ∀ l : List Nat, (∀ w ∈ l, w < 4294967296) →
      (l.foldr (fun w acc => fromNatBE 256 4 w ++ acc) []).length = 4 * l.length := by
    intro l
    induction l with
    | nil => intro _; rfl
    | cons w rest ih =>
      intro hw
      simp only [List.foldr, List.length_append, List.length_cons]
      rw [ih (fun x hx => hw x (List.mem_cons_of_mem _ hx))]
      rw [fromNatBE_length 256 (by norm_num) 4 w
        (by have := hw w (List.mem_cons_self _ _); norm_num; omega)]
      ring
  rw [this hs hbound, hlen]

theorem sha256_bytes_lt (msg : List Nat) : ∀ x ∈ sha256 msg, x < 256 := by
  rw [sha256]
  intro x hx
  generalize hhs : (chunks64 (shaPad msg).length (shaPad msg)).foldl shaCompress shaH0 = hs at hx
  have : ∀ l : List Nat, ∀ x ∈ l.foldr (fun w acc => fromNatBE 256 4 w ++ acc) [], x < 256 := by
    intro l
    induction l with
    | nil => intro x hx; simp at hx
    | cons w rest ih =>
      intro x hx
      simp only [List.foldr] at hx
      rcases List.mem_append.mp hx with h | h
      · exact fromNatBE_bytes_lt 256 (by norm_num) 4 w x h
      · exact ih x h
  exact this hs x hx

theorem sha256d_length (msg : List Nat) : (sha256d msg).length = 32 := sha256_length _

theorem sha256d_bytes_lt (msg : List Nat) : ∀ x ∈ sha256d msg, x < 256 := sha256_bytes_lt _

/-! ## Character tables -/

theorem base58_char_roundtrip : ∀ d, d < 58 → charIndex base58Alphabet (base58Char d) = some d := by
  decide

theorem bech32_char_roundtrip : ∀ d, d < 32 → charIndex bech32Charset (bech32Char d) = some d := by
  decide

theorem base58Char_ne_one : ∀ d, d < 58 → d ≠ 0 → base58Char d ≠ '1' := by
  decide

theorem decodeChars_map (alpha : List Char) (chr : Nat → Char) :
    ∀ l : List Nat, (∀ d ∈ l, charIndex alpha (chr d) = some d) →
      decodeChars alpha (l.map chr) = some l := by
  intro l
  induction l with
  | nil => intro _; rfl
  | cons d rest ih =>
    intro h
    have hd := h d (List.mem_cons_self _ _)
    have hrest := ih (fun x hx => h x (List.mem_cons_of_mem _ hx))
    simp only [List.map_cons, decodeChars]
    rw [hd, hrest]

theorem countLeadingOnes_replicate_append (z : Nat) (rest : List Char)
    (h : rest.headD '2' ≠ '1') :
    countLeadingOnes (List.replicate z '1' ++ rest) = z := by
  induction z with
  | zero =>
    cases rest with
    | nil => rfl
    | cons c t =>
      simp only [List.replicate, List.nil_append, countLeadingOnes]
      rw [if_neg (by simpa using h)]
  | succ z ih =>
    rw [List.replicate_succ, List.cons_append, countLeadingOnes]
    rw [if_pos rfl, ih]

/-! ## Base58check round trip -/

theorem base58_full_length (payload : List Nat) (hlen : payload.length = 21) :
    (payload ++ (sha256d payload).take 4).length = 25 := by
  rw [List.length_append, hlen, List.length_take, sha256d_length]
  omega

theorem base58_full_bytes_lt (payload : List Nat) (hin : ∀ x ∈ payload, x < 256) :
    ∀ x ∈ payload ++ (sha256d payload).take 4, x < 256 := by
  intro x hx
  rcases List.mem_append.mp hx with h | h
  · exact hin x h
  · exact sha256d_bytes_lt payload x (List.take_subset _ _ h)

theorem base58check_roundtrip (payload : List Nat) (hlen : payload.length = 21)
    (hin : ∀ x ∈ payload, x < 256) :
    base58checkDecode (base58checkEncode payload) = some payload := by
  have hfull_len := base58_full_length payload hlen
  have hfull_in := base58_full_bytes_lt payload hin
  set full := payload ++ (sha256d payload).take 4 with hfull
  set n := beToNat 256 full with hn
  set digits := natToBaseBE 58 n n with hdigits
  have hn58 : n < 58 ^ n := Nat.lt_pow_self (by norm_num) n
  have hdig_lt : ∀ d ∈ digits, d < 58 := natToBaseBE_digits_lt 58 (by norm_num) n n
  have hdig_head : digits.headD 1 ≠ 0 := natToBaseBE_headD 58 (by norm_num) n n hn58
  have hrest_head : (digits.map base58Char).headD '2' ≠ '1' := by
    cases hcase : digits with
    | nil => simp
    | cons e t =>
      have he0 : e ≠ 0 := by rw [hcase] at hdig_head; exact hdig_head
      have helt : e < 58 := hdig_lt e (by rw [hcase]; exact List.mem_cons_self _ _)
      simpa using base58Char_ne_one e helt he0
  have hencode : base58checkEncode payload
      = List.replicate (clz full) '1' ++ digits.map base58Char := by
    rw [base58checkEncode]
  have hcount : countLeadingOnes (base58checkEncode payload) = clz full := by
    rw [hencode]
    exact countLeadingOnes_replicate_append _ _ hrest_head
  have hdrop : (base58checkEncode payload).drop (clz full) = digits.map base58Char := by
    rw [hencode]
    exact List.drop_left' (List.length_replicate _ _)
  have hdec : decodeChars base58Alphabet (digits.map base58Char) = some digits :=
    decodeChars_map base58Alphabet base58Char digits
      (fun d hd => base58_char_roundtrip d (hdig_lt d hd))
  have hval : beToNat 58 digits = n := beToNat_natToBaseBE 58 (by norm_num) n n hn58
  have hbytes : natToBaseBE 256 n n = List.drop (clz full) full := by
    have hdropval : beToNat 256 (List.drop (clz full) full) = n := beToNat_drop_clz 256 full
    have := natToBaseBE_beToNat 256 (by norm_num) (List.drop (clz full) full) n
      (fun x hx => hfull_in x (List.drop_subset _ _ hx))
      (clz_drop_headD full)
      (by rw [hdropval]; exact Nat.lt_pow_self (by norm_num) n)
    rw [hdropval] at this
    exact this
  have hrecon : List.replicate (clz full) 0 ++ natToBaseBE 256 n n = full := by
    rw [hbytes]
    exact clz_decomp full
  rw [base58checkDecode, hcount, hdrop, hdec]
  simp only [hval, hrecon, hfull_len, if_pos]
  have htake : full.take 21 = payload := by
    rw [hfull]
    exact List.take_left' hlen
  have hdrop21 : full.drop 21 = (sha256d payload).take 4 := by
    rw [hfull]
    exact List.drop_left' hlen
  rw [htake, hdrop21, if_pos rfl]

/-! ## Bech32 round trip -/

theorem bech32CreateChecksum_length (h : List Char) (data : List Nat) :
    (bech32CreateChecksum h data).length = 6 := by
  rw [bech32CreateChecksum]
  rfl

theorem bech32CreateChecksum_lt (h : List Char) (data : List Nat) :
    ∀ x ∈ bech32CreateChecksum h data, x < 32 := by
  rw [bech32CreateChecksum]
  intro x hx
  rcases List.mem_map.mp hx with ⟨k, -, rfl⟩
  exact Nat.mod_lt _ (by norm_num)

theorem bech32_address_roundtrip (pkhash : List Nat) (hlen : pkhash.length = 20)
    (hin : ∀ x ∈ pkhash, x < 256) (net : Network) :
    BitcoinAddress.parse ((BitcoinAddress.P2wpkhV0 pkhash).display net) net
      = .ok (.P2wpkhV0 pkhash) := by
  have hN160 : beToNat 256 pkhash < 32 ^ 32 := by
    have hx := beToNat_lt 256 (by norm_num) pkhash hin
    rw [hlen] at hx
    calc beToNat 256 pkhash < 256 ^ 20 := hx
      _ = 32 ^ 32 := by norm_num
  set N := beToNat 256 pkhash with hN
  set quints := fromNatBE 32 32 N with hq
  have hqlen : quints.length = 32 := fromNatBE_length 32 (by norm_num) 32 N hN160
  have hqlt : ∀ x ∈ quints, x < 32 := fromNatBE_bytes_lt 32 (by norm_num) 32 N
  set data := (0 :: quints : List Nat) with hdata
  set cs := bech32CreateChecksum (bech32Hrp net) data with hcs
  have hcslen : cs.length = 6 := bech32CreateChecksum_length _ _
  have hcslt : ∀ x ∈ cs, x < 32 := bech32CreateChecksum_lt _ _
  have hdatalt : ∀ x ∈ data ++ cs, x < 32 := by
    intro x hx
    rcases List.mem_append.mp hx with h | h
    · rw [hdata] at h
      rcases List.mem_cons.mp h with rfl | h
      · norm_num
      · exact hqlt x h
    · exact hcslt x h
  have hdisp : (BitcoinAddress.P2wpkhV0 pkhash).display net
      = (bech32Hrp net ++ ['1']) ++ (data ++ cs).map bech32Char := by
    rw [BitcoinAddress.display, bech32Encode]
  have hpre : (bech32Hrp net ++ ['1']).isPrefixOf ((BitcoinAddress.P2wpkhV0 pkhash).display net)
      = true := by
    rw [hdisp]
    exact List.isPrefixOf_iff_prefix.mpr (List.prefix_append _ _)
  have ht : ((BitcoinAddress.P2wpkhV0 pkhash).display net).drop ((bech32Hrp net).length + 1)
      = (data ++ cs).map bech32Char := by
    rw [hdisp]
    exact List.drop_left' (by rw [List.length_append]; rfl)
  have hdec : decodeChars bech32Charset ((data ++ cs).map bech32Char) = some (data ++ cs) :=
    decodeChars_map _ _ _ (fun d hd => bech32_char_roundtrip d (hdatalt d hd))
  have hvlen : (data ++ cs).length = 39 := by
    rw [List.length_append, hdata, List.length_cons, hqlen, hcslen]
  have htakev : (data ++ cs).take ((data ++ cs).length - 6) = data := by
    rw [hvlen]
    exact List.take_left' (by rw [hdata, List.length_cons, hqlen])
  have hdropv : (data ++ cs).drop ((data ++ cs).length - 6) = cs := by
    rw [hvlen]
    exact List.drop_left' (by rw [hdata, List.length_cons, hqlen])
  rw [BitcoinAddress.parse, if_pos hpre, ht]
  simp only [hdec]
  rw [htakev, hdropv, hvlen]
  rw [if_neg (by omega : ¬(39 < 7))]
  rw [if_neg (fun hcon => hcon hcs)]
  simp only [hdata]
  rw [if_neg (fun hcon => hcon rfl)]
  rw [if_neg (fun hcon => hcon hqlen)]
  have hback : beToNat 32 quints = N := beToNat_fromNatBE 32 (by norm_num) 32 N hN160
  rw [hback, hN]
  rw [fromNatBE_beToNat 256 (by norm_num) pkhash 20 hlen hin]

/-! ## Leading character of a base58check encoding -/

theorem natToBaseBE_headD_div (b : Nat) (hb : 2 ≤ b) :
    ∀ (m fuel n : Nat), b ^ m ≤ n → n < b ^ (m + 1) → n < b ^ fuel →
      (natToBaseBE b fuel n).headD 1 = n / b ^ m := by
  intro m
  induction m with
  | zero =>
    intro fuel n hlow hhigh hfuel
    have hn0 : n ≠ 0 := by simp at hlow; omega
    have hf : 1 ≤ fuel := by
      rcases Nat.eq_zero_or_pos fuel with h | h
      · subst h; simp at hfuel; omega
      · exact h
    match fuel, hf with
    | f + 1, _ =>
      rw [natToBaseBE, if_neg hn0]
      have hnb : n < b := by simpa using hhigh
      rw [Nat.div_eq_of_lt hnb, natToBaseBE_zero]
      simp [Nat.mod_eq_of_lt hnb]
  | succ m ih =>
    intro fuel n hlow hhigh hfuel
    have hn0 : n ≠ 0 := by
      have : 1 ≤ b ^ (m + 1) := Nat.one_le_pow _ _ (by omega)
      omega
    have hf : 1 ≤ fuel := by
      rcases Nat.eq_zero_or_pos fuel with h | h
      · subst h; simp at hfuel; omega
      · exact h
    match fuel, hf with
    | f + 1, _ =>
      rw [natToBaseBE, if_neg hn0]
      have hdl : b ^ m ≤ n / b := by
        rw [Nat.le_div_iff_mul_le (by omega : 0 < b)]
        calc b ^ m * b = b ^ (m + 1) := (pow_succ b m).symm
          _ ≤ n := hlow
      have hdh : n / b < b ^ (m + 1) := by
        rw [Nat.div_lt_iff_lt_mul (by omega : 0 < b)]
        calc n < b ^ (m + 1 + 1) := hhigh
          _ = b ^ (m + 1) * b := by ring
      have hdf : n / b < b ^ f := by
        rw [Nat.div_lt_iff_lt_mul (by omega : 0 < b)]
        calc n < b ^ (f + 1) := hfuel
          _ = b ^ f * b := by ring
      have hdne : n / b ≠ 0 := by
        have : 1 ≤ b ^ m := Nat.one_le_pow _ _ (by omega)
        omega
      have hfne : 1 ≤ f := by
        rcases Nat.eq_zero_or_pos f with h | h
        · subst h; simp at hdf; omega
        · exact h
      have hne : natToBaseBE b f (n / b) ≠ [] := natToBaseBE_ne_nil b f (n / b) hdne hfne
      rw [headD_append_of_ne_nil _ _ _ hne, ih f (n / b) hdl hdh hdf,
        Nat.div_div_eq_div_mul]
      congr 1
      rw [pow_succ]
      ring

theorem map_headD_of_ne_nil (f : Nat → Char) (l : List Nat) (hne : l ≠ []) :
    (l.map f).headD '?' = f (l.headD 1) := by
  cases l with
  | nil => exact absurd rfl hne
  | cons e t => rfl

theorem base58checkEncode_head_ver (v : Nat) (hash : List Nat) (hv0 : v ≠ 0) (hv : v < 256)
    (hlen : hash.length = 20) (hin : ∀ x ∈ hash, x < 256) (m : Nat)
    (hlow : 58 ^ m ≤ v * 2 ^ 192) (hhigh : (v + 1) * 2 ^ 192 ≤ 58 ^ (m + 1)) :
    ∃ q, base58checkEncode (v :: hash) ≠ [] ∧
      (base58checkEncode (v :: hash)).headD '?' = base58Char q ∧
      v * 2 ^ 192 / 58 ^ m ≤ q ∧ q ≤ ((v + 1) * 2 ^ 192 - 1) / 58 ^ m := by
  have hfull : (v :: hash) ++ (sha256d (v :: hash)).take 4
      = v :: (hash ++ (sha256d (v :: hash)).take 4) := by
    rw [List.cons_append]
  have hrestlen : (hash ++ (sha256d (v :: hash)).take 4).length = 24 := by
    rw [List.length_append, hlen, List.length_take, sha256d_length]
    omega
  have hrestin : ∀ x ∈ hash ++ (sha256d (v :: hash)).take 4, x < 256 := by
    intro x hx
    rcases List.mem_append.mp hx with h | h
    · exact hin x h
    · exact sha256d_bytes_lt _ x (List.take_subset _ _ h)
  set rest := hash ++ (sha256d (v :: hash)).take 4 with hrest
  have hw : beToNat 256 rest < 2 ^ 192 := by
    have := beToNat_lt 256 (by norm_num) rest hrestin
    rw [hrestlen] at this
    calc beToNat 256 rest < 256 ^ 24 := this
      _ = 2 ^ 192 := by norm_num
  have hnval : beToNat 256 (v :: rest) = v * 2 ^ 192 + beToNat 256 rest := by
    rw [beToNat_cons, hrestlen]
    norm_num
  set n := beToNat 256 (v :: rest) with hn
  have hilow : v * 2 ^ 192 ≤ n := by omega
  have hihigh : n < (v + 1) * 2 ^ 192 := by
    rw [hnval, Nat.succ_mul]
    omega
  have hlow' : 58 ^ m ≤ n := le_trans hlow hilow
  have hhigh' : n < 58 ^ (m + 1) := Nat.lt_of_lt_of_le hihigh hhigh
  have hn0 : n ≠ 0 := by
    have : 1 ≤ 58 ^ m := Nat.one_le_pow _ _ (by omega)
    omega
  have hfuel : n < 58 ^ n := Nat.lt_pow_self (by norm_num) n
  have hhead : (natToBaseBE 58 n n).headD 1 = n / 58 ^ m :=
    natToBaseBE_headD_div 58 (by norm_num) m n n hlow' hhigh' hfuel
  have hdne : natToBaseBE 58 n n ≠ [] := natToBaseBE_ne_nil 58 n n hn0 (by omega)
  have hclz : clz (v :: (hash ++ (sha256d (v :: hash)).take 4)) = 0 := by
    simp only [clz]
    rw [if_neg hv0]
  have henc : base58checkEncode (v :: hash) = (natToBaseBE 58 n n).map base58Char := by
    simp only [base58checkEncode]
    rw [List.cons_append, hclz, List.replicate_zero, List.nil_append]
  refine ⟨n / 58 ^ m, ?_, ?_, ?_, ?_⟩
  · rw [henc]
    intro hcon
    exact hdne (List.map_eq_nil_iff.mp hcon)
  · rw [henc, map_headD_of_ne_nil base58Char _ hdne, hhead]
  · exact Nat.div_le_div_right hilow
  · exact Nat.div_le_div_right (by omega)

theorem isPrefixOf_false_of_headD_ne (c : Char) (p s : List Char) (hs : s ≠ [])
    (h : s.headD '?' ≠ c) : ((c :: p).isPrefixOf s) = false := by
  cases s with
  | nil => exact absurd rfl hs
  | cons d t =>
    have hd : (c == d) = false := beq_eq_false_iff_ne.mpr (fun he => h (by simp [← he]))
    simp [List.isPrefixOf, hd]

/-! ## Legacy (base58check) addresses through parse -/

theorem parse_base58_branch (net : Network) (v : Nat) (hash : List Nat)
    (hpre : ((bech32Hrp net ++ ['1']).isPrefixOf (base58checkEncode (v :: hash))) = false)
    (hv : v < 256) (hlen : hash.length = 20) (hin : ∀ x ∈ hash, x < 256) :
    BitcoinAddress.parse (base58checkEncode (v :: hash)) net
      = (if v = p2pkhVersion net then .ok (.P2pkh hash)
         else if v = p2shVersion net then .ok (.P2sh hash)
         else .error .WrongVersionByte) := by
  have hrt := base58check_roundtrip (v :: hash) (by simp [hlen]) (by
    intro x hx
    rcases List.mem_cons.mp hx with rfl | h
    · exact hv
    · exact hin x h)
  rw [BitcoinAddress.parse, if_neg (by simp [hpre]), hrt]

theorem base58checkEncode_zero_headD (hash : List Nat) :
    base58checkEncode (0 :: hash) ≠ [] ∧ (base58checkEncode (0 :: hash)).headD '?' = '1' := by
  have hclz : clz (0 :: (hash ++ (sha256d (0 :: hash)).take 4))
      = clz (hash ++ (sha256d (0 :: hash)).take 4) + 1 := by
    rw [clz, if_pos rfl]
  simp only [base58checkEncode, List.cons_append]
  rw [hclz, List.replicate_succ]
  exact ⟨by simp, rfl⟩

theorem p2pkh_parse_display (hash : List Nat) (hlen : hash.length = 20)
    (hin : ∀ x ∈ hash, x < 256) (net : Network) :
    BitcoinAddress.parse ((BitcoinAddress.P2pkh hash).display net) net
      = .ok (.P2pkh hash) := by
  cases net with
  | Mainnet =>
    obtain ⟨hne, hhd⟩ := base58checkEncode_zero_headD hash
    have hpre : ((bech32Hrp .Mainnet ++ ['1']).isPrefixOf (base58checkEncode (0 :: hash)))
        = false := by
      have hh : bech32Hrp .Mainnet ++ ['1'] = 'b' :: ['c', '1'] := rfl
      rw [hh]
      exact isPrefixOf_false_of_headD_ne 'b' _ _ hne (by rw [hhd]; decide)
    have hd : (BitcoinAddress.P2pkh hash).display .Mainnet
        = base58checkEncode (0 :: hash) := rfl
    rw [hd, parse_base58_branch .Mainnet 0 hash hpre (by norm_num) hlen hin]
    rfl
  | Testnet =>
    obtain ⟨q, hne, hhd, hlo, hhi⟩ := base58checkEncode_head_ver 111 hash (by norm_num)
      (by norm_num) hlen hin 33 (by decide) (by decide)
    have h1 : 111 * 2 ^ 192 / 58 ^ 33 = 44 := by decide
    have h2 : ((111 + 1) * 2 ^ 192 - 1) / 58 ^ 33 = 45 := by decide
    have hq : q = 44 ∨ q = 45 := by
      rw [h1] at hlo
      rw [h2] at hhi
      omega
    have hpre : ((bech32Hrp .Testnet ++ ['1']).isPrefixOf (base58checkEncode (111 :: hash)))
        = false := by
      have hh : bech32Hrp .Testnet ++ ['1'] = 't' :: ['b', '1'] := rfl
      rw [hh]
      refine isPrefixOf_false_of_headD_ne 't' _ _ hne ?_
      rw [hhd]
      rcases hq with rfl | rfl <;> decide
    have hd : (BitcoinAddress.P2pkh hash).display .Testnet
        = base58checkEncode (111 :: hash) := rfl
    rw [hd, parse_base58_branch .Testnet 111 hash hpre (by norm_num) hlen hin]
    rfl
  | Regtest =>
    obtain ⟨q, hne, hhd, hlo, hhi⟩ := base58checkEncode_head_ver 111 hash (by norm_num)
      (by norm_num) hlen hin 33 (by decide) (by decide)
    have h1 : 111 * 2 ^ 192 / 58 ^ 33 = 44 := by decide
    have h2 : ((111 + 1) * 2 ^ 192 - 1) / 58 ^ 33 = 45 := by decide
    have hq : q = 44 ∨ q = 45 := by
      rw [h1] at hlo
      rw [h2] at hhi
      omega
    have hpre : ((bech32Hrp .Regtest ++ ['1']).isPrefixOf (base58checkEncode (111 :: hash)))
        = false := by
      have hh : bech32Hrp .Regtest ++ ['1'] = 'b' :: ['c', 'r', 't', '1'] := rfl
      rw [hh]
      refine isPrefixOf_false_of_headD_ne 'b' _ _ hne ?_
      rw [hhd]
      rcases hq with rfl | rfl <;> decide
    have hd : (BitcoinAddress.P2pkh hash).display .Regtest
        = base58checkEncode (111 :: hash) := rfl
    rw [hd, parse_base58_branch .Regtest 111 hash hpre (by norm_num) hlen hin]
    rfl

theorem p2sh_parse_display (hash : List Nat) (hlen : hash.length = 20)
    (hin : ∀ x ∈ hash, x < 256) (net : Network) :
    BitcoinAddress.parse ((BitcoinAddress.P2sh hash).display net) net
      = .ok (.P2sh hash) := by
  cases net with
  | Mainnet =>
    obtain ⟨q, hne, hhd, hlo, hhi⟩ := base58checkEncode_head_ver 5 hash (by norm_num)
      (by norm_num) hlen hin 33 (by decide) (by decide)
    have h1 : 5 * 2 ^ 192 / 58 ^ 33 = 2 := by decide
    have h2 : ((5 + 1) * 2 ^ 192 - 1) / 58 ^ 33 = 2 := by decide
    have hq : q = 2 := by
      rw [h1] at hlo
      rw [h2] at hhi
      omega
    have hpre : ((bech32Hrp .Mainnet ++ ['1']).isPrefixOf (base58checkEncode (5 :: hash)))
        = false := by
      have hh : bech32Hrp .Mainnet ++ ['1'] = 'b' :: ['c', '1'] := rfl
      rw [hh]
      refine isPrefixOf_false_of_headD_ne 'b' _ _ hne ?_
      rw [hhd, hq]
      decide
    have hd : (BitcoinAddress.P2sh hash).display .Mainnet
        = base58checkEncode (5 :: hash) := rfl
    rw [hd, parse_base58_branch .Mainnet 5 hash hpre (by norm_num) hlen hin]
    rfl
  | Testnet =>
    obtain ⟨q, hne, hhd, hlo, hhi⟩ := base58checkEncode_head_ver 196 hash (by norm_num)
      (by norm_num) hlen hin 34 (by decide) (by decide)
    have h1 : 196 * 2 ^ 192 / 58 ^ 34 = 1 := by decide
    have h2 : ((196 + 1) * 2 ^ 192 - 1) / 58 ^ 34 = 1 := by decide
    have hq : q = 1 := by
      rw [h1] at hlo
      rw [h2] at hhi
      omega
    have hpre : ((bech32Hrp .Testnet ++ ['1']).isPrefixOf (base58checkEncode (196 :: hash)))
        = false := by
      have hh : bech32Hrp .Testnet ++ ['1'] = 't' :: ['b', '1'] := rfl
      rw [hh]
      refine isPrefixOf_false_of_headD_ne 't' _ _ hne ?_
      rw [hhd, hq]
      decide
    have hd : (BitcoinAddress.P2sh hash).display .Testnet
        = base58checkEncode (196 :: hash) := rfl
    rw [hd, parse_base58_branch .Testnet 196 hash hpre (by norm_num) hlen hin]
    rfl
  | Regtest =>
    obtain ⟨q, hne, hhd, hlo, hhi⟩ := base58checkEncode_head_ver 196 hash (by norm_num)
      (by norm_num) hlen hin 34 (by decide) (by decide)
    have h1 : 196 * 2 ^ 192 / 58 ^ 34 = 1 := by decide
    have h2 : ((196 + 1) * 2 ^ 192 - 1) / 58 ^ 34 = 1 := by decide
    have hq : q = 1 := by
      rw [h1] at hlo
      rw [h2] at hhi
      omega
    have hpre : ((bech32Hrp .Regtest ++ ['1']).isPrefixOf (base58checkEncode (196 :: hash)))
        = false := by
      have hh : bech32Hrp .Regtest ++ ['1'] = 'b' :: ['c', 'r', 't', '1'] := rfl
      rw [hh]
      refine isPrefixOf_false_of_headD_ne 'b' _ _ hne ?_
      rw [hhd, hq]
      decide
    have hd : (BitcoinAddress.P2sh hash).display .Regtest
        = base58checkEncode (196 :: hash) := rfl
    rw [hd, parse_base58_branch .Regtest 196 hash hpre (by norm_num) hlen hin]
    rfl

/-- C7: for every supported address over a valid 20-byte hash and every
network, re-parsing the displayed string with the same network returns
exactly the original address. -/
theorem claim_C7 (addr : BitcoinAddress) (net : Network)
    (hlen : (addrPayload addr).length = 20) (hin : ∀ x ∈ addrPayload addr, x < 256) :
    BitcoinAddress.parse (addr.display net) net = .ok addr := by
  cases addr with
  | P2wpkhV0 h => exact bech32_address_roundtrip h hlen hin net
  | P2pkh h => exact p2pkh_parse_display h hlen hin net
  | P2sh h => exact p2sh_parse_display h hlen hin net

/-- Witness for C7 on a concrete P2WPKH address and the main network. -/
theorem claim_C7_witness :
    BitcoinAddress.parse ((BitcoinAddress.P2wpkhV0 (List.replicate 20 4)).display .Mainnet)
        .Mainnet
      = .ok (.P2wpkhV0 (List.replicate 20 4)) :=
  claim_C7 (.P2wpkhV0 (List.replicate 20 4)) .Mainnet (by decide) (by decide)

/-! ## Known-answer vectors validating the executable model -/

set_option maxRecDepth 100000 in
theorem sha256_known_vector :
    sha256 [97, 98, 99]
      = [0xba, 0x78, 0x16, 0xbf, 0x8f, 0x01, 0xcf, 0xea, 0x41, 0x41, 0x40, 0xde, 0x5d, 0xae,
         0x22, 0x23, 0xb0, 0x03, 0x61, 0xa3, 0x96, 0x17, 0x7a, 0x9c, 0xb4, 0x10, 0xff, 0x61,
         0xf2, 0x00, 0x15, 0xad] := by
  decide

set_option maxRecDepth 100000 in
theorem base58check_known_vector :
    base58checkEncode (0 :: List.replicate 20 0) = "1111111111111111111114oLvT2".toList := by
  decide

set_option maxRecDepth 100000 in
theorem bech32_known_vector :
    (BitcoinAddress.P2wpkhV0
        (fromNatBE 256 20 0x751e76e8199196d454941c45d1b3a323f1433bd6)).display .Mainnet
      = "bc1qw508d6qejxtdg4y5r3zarvary0c5xw7kv8f3t4".toList := by
  decide
